import Mathlib

/-!
# Lazy concurrent list-based set (`lazy.c`): sequential verification

A shallow embedding of `src/c-cpp/src/linkedlists/co-list/lazy.c`, and of the key generator
`rand_range` of `src/c-cpp/src/trees/bronson/test.cpp`.

* `long` values (and pointers cast to `long`) are integers in two's complement, 64 bits wide;
  the bitwise operations go through the 64-bit pattern of the value.
* Memory is a partial map from addresses to nodes; dereferencing `NULL` or an unallocated
  address yields `none`.
* Loops carry a fuel argument; a result `none` stands for a fault, a blocked lock or missing fuel.
* Double arithmetic is carried out on integer numerators, with the rounding of each operation.
-/

namespace LazyList

/-! ## Machine integers -/

/-- Largest value of a 64-bit `long`. -/
def LONG_MAX : Int := 9223372036854775807

/-- Smallest value of a 64-bit `long`. -/
def LONG_MIN : Int := -9223372036854775808

/-- Reduction of an integer to the range of a 64-bit `long` (two's complement). -/
def toLong (x : Int) : Int :=
  (x + 9223372036854775808) % 18446744073709551616 - 9223372036854775808

/-- Conversion of an integer to a 32-bit `int`: the low 32 bits are kept. -/
def toInt (x : Int) : Int :=
  (x + 2147483648) % 4294967296 - 2147483648

/-- The 64-bit two's complement pattern of a `long`, as a natural number below `2 ^ 64`. -/
def bits64 (x : Int) : Nat :=
  (x % 18446744073709551616).toNat

/-- The C operator `&` on two `long` values. -/
def land64 (a b : Int) : Int :=
  toLong (Int.ofNat (Nat.land (bits64 a) (bits64 b)))

/-- Bit `j` of the `long` value `x`. -/
def longBit (x : Int) (j : Nat) : Bool :=
  (bits64 x).testBit j

/-! ## Marked references (`lazy.c`, lines 32-53) -/

/-- Embedding of `is_marked_ref`: `return (int) (i &= LONG_MIN+1);` -/
def is_marked_ref (i : Int) : Int :=
  toInt (land64 i (toLong (LONG_MIN + 1)))

/-- Embedding of `unset_mark`: `i &= LONG_MAX-1; return i;` -/
def unset_mark (i : Int) : Int :=
  land64 i (toLong (LONG_MAX - 1))

/-- Embedding of `set_mark`: `i = unset_mark(i); i += 1; return i;` -/
def set_mark (i : Int) : Int :=
  toLong (unset_mark i + 1)

/-- Embedding of `get_unmarked_ref`: `return (node_l_t *) unset_mark((long) n);` -/
def get_unmarked_ref (n : Int) : Int :=
  unset_mark n

/-- Embedding of `get_marked_ref`: `return (node_l_t *) set_mark((long) n);` -/
def get_marked_ref (n : Int) : Int :=
  set_mark n

/-- An aligned, non-negative node address (`NULL` included): bit 0 and bit 63 are clear. -/
def validRef (p : Int) : Prop :=
  0 ≤ p ∧ p ≤ LONG_MAX ∧ p % 2 = 0

instance (p : Int) : Decidable (validRef p) := by
  unfold validRef; infer_instance

/-! ## Memory and nodes -/

/-- Modelled from the spec: the node type `node_l_t` declared in `lazy.h`: an immutable key
`val`, a successor slot `next` holding the (possibly marked) reference to the next node as a
`long` value, and the node's lock (`true` while held). -/
structure node_l where
  val : Int
  next : Int
  lock : Bool
deriving DecidableEq

/-- Program state: the memory, and the `head` field of the set (`set->head`). -/
structure State where
  mem : Int → Option node_l
  head : Int

/-- Read of the node at address `p`; `NULL` and unallocated addresses fault. -/
def load (s : State) (p : Int) : Option node_l :=
  if p = 0 then none else s.mem p

/-- Write of the node at address `p`. -/
def store (s : State) (p : Int) (n : node_l) : State :=
  { s with mem := Function.update s.mem p (some n) }

/-- Modelled from the spec: the macro `LOCK` of `lazy.h` acquires the node's exclusive lock.
In a sequential execution a lock that is already held is never released, so the call blocks
forever (`none`). -/
def LOCK (s : State) (p : Int) : Option State :=
  match load s p with
  | none => none
  | some n => if n.lock = true then none else some (store s p { n with lock := true })

/-- Modelled from the spec: the macro `UNLOCK` of `lazy.h` releases the node's lock. -/
def UNLOCK (s : State) (p : Int) : Option State :=
  match load s p with
  | none => none
  | some n => some (store s p { n with lock := false })

/-- Modelled from the spec: `new_node_l(val, next, transactional)` of the list library returns
a fresh node with that `val`, successor `next` and a free lock. The address `a` handed back by
the allocator is an input of the model. -/
def new_node_l (s : State) (a : Int) (val : Int) (next : Int) (_transactional : Int) : State :=
  store s a ⟨val, next, false⟩

/-! ## Validated lock acquisition (`lazy.c`, lines 55-83) -/

/-- Embedding of `lock_ref(node, next)`. -/
def lock_ref (s : State) (node next : Int) : Option (Int × State) :=
  match load s node with
  | none => none
  | some nd =>
    if is_marked_ref nd.next ≠ 0 ∨ nd.next ≠ next then some (0, s)
    else
      match LOCK s node with
      | none => none
      | some s1 =>
        match load s1 node with
        | none => none
        | some nd1 =>
          if is_marked_ref nd1.next ≠ 0 ∨ nd1.next ≠ next then
            match UNLOCK s1 node with
            | none => none
            | some s2 => some (0, s2)
          else some (1, s1)

/-- The test `is_marked_ref((long) n) || n->val != val` of `lock_val`, with `n = node->next`;
`n` is dereferenced only when the first disjunct is false. -/
def val_check (s : State) (node : Int) (val : Int) : Option Bool :=
  match load s node with
  | none => none
  | some nd =>
    if is_marked_ref nd.next ≠ 0 then some true
    else
      match load s nd.next with
      | none => none
      | some t => some (decide (t.val ≠ val))

/-- Embedding of `lock_val(node, val)`. -/
def lock_val (s : State) (node : Int) (val : Int) : Option (Int × State) :=
  match val_check s node val with
  | none => none
  | some true => some (0, s)
  | some false =>
    match LOCK s node with
    | none => none
    | some s1 =>
      match val_check s1 node val with
      | none => none
      | some true =>
        match UNLOCK s1 node with
        | none => none
        | some s2 => some (0, s2)
      | some false => some (1, s1)

/-! ## The three operations (`lazy.c`, lines 85-168) -/

/-- The loop `while (curr->val < val) curr = get_unmarked_ref(curr->next);` of `parse_find`;
returns the final `curr`. -/
def find_walk : Nat → State → Int → Int → Option Int
  | 0, _, _, _ => none
  | fuel + 1, s, curr, val =>
    match load s curr with
    | none => none
    | some c =>
      if c.val < val then find_walk fuel s (get_unmarked_ref c.next) val else some curr

/-- Embedding of `parse_find(set, val)`; returns the result and the state after the call. -/
def parse_find (fuel : Nat) (s : State) (val : Int) : Option (Int × State) :=
  match find_walk fuel s s.head val with
  | none => none
  | some curr =>
    match load s curr with
    | none => none
    | some c => some (if c.val = val ∧ is_marked_ref c.next = 0 then 1 else 0, s)

/-- The loop `while (curr->val < val) { pred = curr; curr = get_unmarked_ref(curr->next); }`
shared by `parse_insert` and `parse_delete`; returns the final `(pred, curr)`. -/
def walk : Nat → State → Int → Int → Int → Option (Int × Int)
  | 0, _, _, _, _ => none
  | fuel + 1, s, pred, curr, val =>
    match load s curr with
    | none => none
    | some c =>
      if c.val < val then walk fuel s curr (get_unmarked_ref c.next) val else some (pred, curr)

/-- Outcome of one iteration of a `while (1)` retry loop: the function returns `r`, or the
iteration ends in `continue`. -/
inductive Iter where
  | ret (r : Int) (s : State)
  | again (s : State)

/-- One iteration of the loop `while (1)` of `parse_insert(set, val)`; `fuel` bounds the inner
walk. The argument `a` is the address the allocator returns if `new_node_l` is reached. -/
def insert_body (fuel : Nat) (s : State) (a : Int) (val : Int) : Option Iter :=
  match load s s.head with
  | none => none
  | some h =>
    match walk fuel s s.head (get_unmarked_ref h.next) val with
    | none => none
    | some (pred, curr) =>
      match load s curr with
      | none => none
      | some c =>
        if c.val = val then some (.ret 0 s)
        else
          match lock_ref s pred curr with
          | none => none
          | some (r, s1) =>
            if r = 0 then some (.again s1)
            else
              let s2 := new_node_l s1 a val curr 0
              match load s2 pred with
              | none => none
              | some p =>
                match UNLOCK (store s2 pred { p with next := a }) pred with
                | none => none
                | some s4 => some (.ret 1 s4)

/-- Embedding of `parse_insert(set, val)`. Each iteration of `while (1)` uses one unit of
fuel. -/
def parse_insert : Nat → State → Int → Int → Option (Int × State)
  | 0, _, _, _ => none
  | fuel + 1, s, a, val =>
    match insert_body (fuel + 1) s a val with
    | none => none
    | some (.ret r s1) => some (r, s1)
    | some (.again s1) => parse_insert fuel s1 a val

/-- One iteration of the loop `while (1)` of `parse_delete(set, val)`; `fuel` bounds the inner
walk. -/
def delete_body (fuel : Nat) (s : State) (val : Int) : Option Iter :=
  match load s s.head with
  | none => none
  | some h =>
    match walk fuel s s.head (get_unmarked_ref h.next) val with
    | none => none
    | some (pred, curr0) =>
      match load s curr0 with
      | none => none
      | some c0 =>
        if c0.val ≠ val then some (.ret 0 s)
        else
          let next := get_unmarked_ref c0.next
          match lock_val s pred val with
          | none => none
          | some (r1, s1) =>
            if r1 = 0 then some (.again s1)
            else
              match load s1 pred with
              | none => none
              | some p =>
                let curr := p.next
                match lock_ref s1 curr next with
                | none => none
                | some (r2, s2) =>
                  if r2 = 0 then
                    match UNLOCK s2 pred with
                    | none => none
                    | some s3 => some (.again s3)
                  else
                    match load s2 curr with
                    | none => none
                    | some c =>
                      let s3 := store s2 curr { c with next := get_marked_ref next }
                      match load s3 pred with
                      | none => none
                      | some p3 =>
                        let s4 := store s3 pred { p3 with next := next }
                        match UNLOCK s4 curr with
                        | none => none
                        | some s5 =>
                          match UNLOCK s5 pred with
                          | none => none
                          | some s6 => some (.ret 1 s6)

/-- Embedding of `parse_delete(set, val)`. Each iteration of `while (1)` uses one unit of
fuel. -/
def parse_delete : Nat → State → Int → Option (Int × State)
  | 0, _, _ => none
  | fuel + 1, s, val =>
    match delete_body (fuel + 1) s val with
    | none => none
    | some (.ret r s1) => some (r, s1)
    | some (.again s1) => parse_delete fuel s1 val

/-! ## Well-formed states -/

/-- A reachable node: its address together with its content. -/
abbrev Cell := Int × node_l

/-- The call `seg s a cells b` says that following the successor slots (mark stripped) from the
pointer `a` visits exactly the nodes `cells`, in this order, and then arrives at `b`. -/
def seg (s : State) : Int → List Cell → Int → Prop
  | a, [], b => a = b
  | a, c :: rest, b =>
    a = c.1 ∧ a ≠ 0 ∧ s.mem a = some c.2 ∧ seg s (get_unmarked_ref c.2.next) rest b

instance instDecidableSeg (s : State) :
    (a : Int) → (l : List Cell) → (b : Int) → Decidable (seg s a l b)
  | a, [], b => inferInstanceAs (Decidable (a = b))
  | a, c :: rest, b =>
    have := instDecidableSeg s (get_unmarked_ref c.2.next) rest b
    inferInstanceAs (Decidable (a = c.1 ∧ a ≠ 0 ∧ s.mem a = some c.2 ∧
      seg s (get_unmarked_ref c.2.next) rest b))

/-- Last node of `pc :: l`: the value of `pred` when the walk has passed over `l`, having
started with `pred = pc`. -/
def lastOr (pc : Cell) : List Cell → Cell
  | [] => pc
  | x :: xs => lastOr x xs

/-- Strictly increasing keys along a list of nodes. -/
def increasing (cells : List Cell) : Prop :=
  cells.Pairwise (fun x y => x.2.val < y.2.val)

/-- The chain from `set->head` is `hd :: mid ++ [tl]`: it starts at the head sentinel `hd`, ends
at the tail sentinel `tl` (whose `next` is `NULL`), and is strictly increasing in `val`. The
nodes of `mid` may carry a marked successor slot; the head sentinel does not. -/
def SortedChain (s : State) (hd : Cell) (mid : List Cell) (tl : Cell) : Prop :=
  seg s s.head (hd :: mid ++ [tl]) 0 ∧ tl.2.next = 0 ∧ is_marked_ref hd.2.next = 0 ∧
    increasing (hd :: mid ++ [tl])

/-- A well-formed quiescent set: a strictly increasing chain between the two sentinels, every
reachable node sits at an aligned non-negative address and holds an unmarked successor slot that
is a plain node address or `NULL`, and no lock is held. -/
def WFQ (s : State) (hd : Cell) (mid : List Cell) (tl : Cell) : Prop :=
  SortedChain s hd mid tl ∧
    (∀ c ∈ hd :: mid ++ [tl], validRef c.1 ∧ validRef c.2.next ∧ is_marked_ref c.2.next = 0) ∧
    (∀ p n, s.mem p = some n → n.lock = false)

/-- The quiescent well-formedness conditions on the whole chain `cells` from `set->head`,
without naming the sentinels. -/
def QList (s : State) (cells : List Cell) : Prop :=
  seg s s.head cells 0 ∧ increasing cells ∧
    (∀ c ∈ cells, validRef c.1 ∧ validRef c.2.next ∧ is_marked_ref c.2.next = 0) ∧
    (∀ p n, s.mem p = some n → n.lock = false)

/-- The keys held by the set: the keys of the nodes between the sentinels. -/
def keys (mid : List Cell) : List Int :=
  mid.map (fun c => c.2.val)

/-- An address the allocator may hand out: aligned, non-negative, not `NULL`, not allocated. -/
def Fresh (s : State) (a : Int) : Prop :=
  validRef a ∧ a ≠ 0 ∧ s.mem a = none

/-- State left by a successful insertion of key `k` between the adjacent nodes `pred` and
`curr`, the new node sitting at address `a`. -/
def insert_post (s : State) (pred : Cell) (a k curr : Int) : State :=
  store (store s a ⟨k, curr, false⟩) pred.1 ⟨pred.2.val, a, false⟩

/-- State left by a successful removal of the node `curr`, which sits between `pred` and the
node at address `next`: `curr` is marked and bypassed. -/
def delete_post (s : State) (pred curr : Cell) (next : Int) : State :=
  store (store s curr.1 ⟨curr.2.val, get_marked_ref next, false⟩) pred.1
    ⟨pred.2.val, next, false⟩

/-! ## Sequences of calls -/

/-- One call on the set; an insertion carries the address the allocator would return. -/
inductive Op where
  | insert (a : Int) (k : Int)
  | delete (k : Int)
  | find (k : Int)
deriving DecidableEq

/-- The key a call is about. -/
def Op.key : Op → Int
  | .insert _ k => k
  | .delete k => k
  | .find k => k

/-- The addresses the allocator has in store for the insertions of a sequence of calls. -/
def allocs : List Op → List Int
  | [] => []
  | .insert a _ :: ops => a :: allocs ops
  | _ :: ops => allocs ops

/-- Runs one call. -/
def step (fuel : Nat) (s : State) : Op → Option (Int × State)
  | .insert a k => parse_insert fuel s a k
  | .delete k => parse_delete fuel s k
  | .find k => parse_find fuel s k

/-- Runs a sequence of calls one after the other; returns each call with its result, and the
final state. -/
def run (fuel : Nat) : State → List Op → Option (List (Op × Int) × State)
  | s, [] => some ([], s)
  | s, op :: ops =>
    match step fuel s op with
    | none => none
    | some (r, s1) =>
      match run fuel s1 ops with
      | none => none
      | some (rs, s2) => some ((op, r) :: rs, s2)

/-- Number of `parse_insert` calls that returned 1. -/
def inserted : List (Op × Int) → Nat
  | [] => 0
  | (.insert _ _, r) :: rs => (if r = 1 then 1 else 0) + inserted rs
  | _ :: rs => inserted rs

/-- Number of `parse_delete` calls that returned 1. -/
def deleted : List (Op × Int) → Nat
  | [] => 0
  | (.delete _, r) :: rs => (if r = 1 then 1 else 0) + deleted rs
  | _ :: rs => deleted rs

/-- A sequence of calls the sequential claims are about: every key lies strictly between the
sentinel keys, and the allocator hands out pairwise distinct fresh addresses. -/
def Admissible (s : State) (lo hi : Int) (ops : List Op) : Prop :=
  (∀ op ∈ ops, lo < op.key ∧ op.key < hi) ∧ (allocs ops).Nodup ∧ ∀ a ∈ allocs ops, Fresh s a

/-! ## Concrete states -/

/-- A state in which key 7 is logically deleted but still linked, and key 9 is live. -/
def markedState : State :=
  ⟨fun p =>
    if p = 16 then some ⟨-2147483648, 48, false⟩
    else if p = 48 then some ⟨7, 65, false⟩
    else if p = 64 then some ⟨9, 32, false⟩
    else if p = 32 then some ⟨2147483647, 0, false⟩
    else none, 16⟩

/-- Head sentinel of `markedState`. -/
def markedHd : Cell := (16, ⟨-2147483648, 48, false⟩)

/-- Nodes of `markedState` between the sentinels. -/
def markedMid : List Cell := [(48, ⟨7, 65, false⟩), (64, ⟨9, 32, false⟩)]

/-- Tail sentinel of `markedState`. -/
def markedTl : Cell := (32, ⟨2147483647, 0, false⟩)

/-- Modelled from the spec: `VAL_MIN` of `lazy.h`, the minimum representable key, held by the
head sentinel. -/
def VAL_MIN : Int := -2147483648

/-- Modelled from the spec: `VAL_MAX` of `lazy.h`, the maximum representable key, held by the
tail sentinel. -/
def VAL_MAX : Int := 2147483647

/-- Head sentinel of the empty set. -/
def emptyHd : Cell := (16, ⟨VAL_MIN, 32, false⟩)

/-- Tail sentinel of the empty set. -/
def emptyTl : Cell := (32, ⟨VAL_MAX, 0, false⟩)

/-- The empty set: only the two sentinels, at addresses 16 and 32. -/
def emptySet : State :=
  ⟨fun p => if p = 16 then some emptyHd.2 else if p = 32 then some emptyTl.2 else none, 16⟩

/-- Head sentinel of the set holding key 5. -/
def fiveHd : Cell := (16, ⟨VAL_MIN, 48, false⟩)

/-- The node carrying key 5. -/
def fiveMid : List Cell := [(48, ⟨5, 32, false⟩)]

/-- The empty set after `parse_insert(set, 5)` with the new node at address 48. -/
def fiveSet : State :=
  ⟨fun p =>
    if p = 16 then some fiveHd.2
    else if p = 48 then some ⟨5, 32, false⟩
    else if p = 32 then some emptyTl.2
    else none, 16⟩

/-- A short sequence of calls on the empty set. -/
def sampleOps : List Op :=
  [.insert 48 7, .find 7, .insert 64 7, .delete 7, .delete 7, .insert 80 9]

/-- The set holding keys 7 and 9 in the middle of `parse_delete(set, 7)`: the logical-delete
write has been done (the node of key 7 carries a marked successor slot), the physical unlink
has not, and the deleting thread still holds the locks of the head sentinel and of the node. -/
def midDeleteState : State :=
  ⟨fun p =>
    if p = 16 then some ⟨-2147483648, 48, true⟩
    else if p = 48 then some ⟨7, 65, true⟩
    else if p = 64 then some ⟨9, 32, false⟩
    else if p = 32 then some ⟨2147483647, 0, false⟩
    else none, 16⟩

/-- Head sentinel of `midDeleteState`. -/
def midDeleteHd : Cell := (16, ⟨-2147483648, 48, true⟩)

/-- Nodes of `midDeleteState` between the sentinels. -/
def midDeleteMid : List Cell := [(48, ⟨7, 65, true⟩), (64, ⟨9, 32, false⟩)]

/-- The set holding keys 5 and 9. -/
def twoSet : State :=
  ⟨fun p =>
    if p = 16 then some ⟨-2147483648, 48, false⟩
    else if p = 48 then some ⟨5, 64, false⟩
    else if p = 64 then some ⟨9, 32, false⟩
    else if p = 32 then some ⟨2147483647, 0, false⟩
    else none, 16⟩

/-- Head sentinel of `twoSet`. -/
def twoHd : Cell := (16, ⟨-2147483648, 48, false⟩)

/-- The node of key 5 in `twoSet`. -/
def twoFive : Cell := (48, ⟨5, 64, false⟩)

/-- The node of key 9 in `twoSet`. -/
def twoNine : Cell := (64, ⟨9, 32, false⟩)

/-! ## The harness's random keys (`test.cpp`, lines 92-121) -/

/-- Number of low bits a double drops from the natural number `n`: the number of halvings that
bring `n` below `2 ^ 53`. The first argument bounds the count; 1100 is above every double
exponent. -/
def excess : Nat → Nat → Nat
  | 0, _ => 0
  | f + 1, n => if n < 9007199254740992 then 0 else excess f (n / 2) + 1

/-- Rounding of a double operation, on integers: the natural number `n` rounded to 53
significant bits, to nearest, ties to even. The flag `sticky` says that a non-zero fraction
below the unit of `n` has been dropped; it is used only with `n` of at least 54 bits. -/
def round53 (n : Nat) (sticky : Bool) : Nat :=
  let e := excess 1100 n
  if e = 0 then n
  else
    let low := n % 2 ^ e
    let q := n / 2 ^ e
    let half := 2 ^ (e - 1)
    if low > half ∨ (low = half ∧ (sticky = true ∨ q % 2 = 1)) then (q + 1) * 2 ^ e
    else q * 2 ^ e

/-- The value `(int)(d * ((double)rand()/((double)(m)+1.0)))`, where `x` is the generator's
output (not negative) and `m` is `RAND_MAX`, an `int`. Doubles are kept as numerators over
`2 ^ 96`: first the double quotient `x / (m + 1)`, then the double product with `d`, each
rounded to 53 bits, then the truncation toward zero of the conversion to `int`. -/
def scaled (m d x : Int) : Int :=
  let y := (m + 1).toNat
  let n := x.toNat * 2 ^ 96
  let N := round53 (n / y) (decide (n % y ≠ 0))
  let P := round53 (d.natAbs * N) false
  let t : Int := Int.ofNat (P / 2 ^ 96)
  toInt (if d < 0 then -t else t)

/-- The value the claim computes in a single iteration of the loop for the range `r` and the
generator output `x`: `1 + ⌊r * x / (m + 1)⌋` with the exact quotient. -/
def exact_value (m r x : Int) : Int :=
  1 + r * x / (m + 1)

/-- The loop `do { d = (m > r ? r : m); v += 1 + (int)(...); r -= m; } while (r > 0);` shared
by `rand_range` and `rand_range_re`. Each iteration consumes one output of the generator, taken
from the list `xs`; the result is `none` when the outputs run out. -/
def rand_loop (m : Int) : List Int → Int → Int → Option Int
  | [], _, _ => none
  | x :: xs, r, v =>
    let d := toInt (if m > r then r else m)
    let v1 := toInt (v + toInt (1 + scaled m d x))
    let r1 := toLong (r - m)
    if r1 > 0 then rand_loop m xs r1 v1 else some v1

/-- Embedding of `rand_range(r)`: `m = RAND_MAX`, `v = 0`, the loop, `return v`. The outputs of
`rand()` are the list `xs`. -/
def rand_range (m : Int) (xs : List Int) (r : Int) : Option Int :=
  rand_loop m xs r 0

/-- Embedding of `rand_range_re(seed, r)`: the same computation, with the outputs of
`rand_r(seed)` as the list `xs`. -/
def rand_range_re (m : Int) (xs : List Int) (r : Int) : Option Int :=
  rand_loop m xs r 0

/-- Modelled from the spec: `RAND_MAX` of the C library; the source comment says it is at least
32767, the value here is the one of glibc. -/
def RAND_MAX : Int := 2147483647

/-! ## Bit-level facts about marked references -/

theorem testBit_mask_strip (j : Nat) :
    Nat.testBit 9223372036854775806 j = decide (1 ≤ j ∧ j ≤ 62) := by
  by_cases h : j < 64
  · interval_cases j <;> decide
  · have : (9223372036854775806 : Nat) < 2 ^ j :=
      lt_of_lt_of_le (by norm_num) (Nat.pow_le_pow_right (by norm_num) (not_lt.mp h))
    rw [Nat.testBit_lt_two_pow this]
    simp; omega

theorem testBit_mask_mark (j : Nat) :
    Nat.testBit 9223372036854775809 j = decide (j = 0 ∨ j = 63) := by
  by_cases h : j < 64
  · interval_cases j <;> decide
  · have : (9223372036854775809 : Nat) < 2 ^ j :=
      lt_of_lt_of_le (by norm_num) (Nat.pow_le_pow_right (by norm_num) (not_lt.mp h))
    rw [Nat.testBit_lt_two_pow this]
    simp; omega

theorem bits64_lt (x : Int) : bits64 x < 18446744073709551616 := by
  unfold bits64; omega

theorem bits64_of_nonneg {x : Int} (h0 : 0 ≤ x) (h1 : x ≤ LONG_MAX) : bits64 x = x.toNat := by
  unfold bits64 LONG_MAX at *
  rw [Int.emod_eq_of_lt h0 (by omega)]

theorem bits64_mask_strip : bits64 (toLong (LONG_MAX - 1)) = 9223372036854775806 := by decide
theorem bits64_mask_mark : bits64 (toLong (LONG_MIN + 1)) = 9223372036854775809 := by decide

theorem testBit_high_false {n j : Nat} (h : n < 9223372036854775808) (hj : 63 ≤ j) :
    n.testBit j = false := by
  apply Nat.testBit_lt_two_pow
  exact lt_of_lt_of_le h (by
    have := Nat.pow_le_pow_right (n := 2) (by norm_num) hj
    simpa using this)

theorem testBit_zero_even {n : Nat} (h : n % 2 = 0) : n.testBit 0 = false := by
  rw [Nat.testBit_zero]; simp [h]

/-- On an even number below `2 ^ 63` the strip mask keeps every bit. -/
theorem land_strip_even {n : Nat} (hlt : n < 9223372036854775808) (hev : n % 2 = 0) :
    Nat.land n 9223372036854775806 = n := by
  apply Nat.eq_of_testBit_eq
  intro j
  show (n &&& 9223372036854775806).testBit j = n.testBit j
  rw [Nat.testBit_and, testBit_mask_strip]
  by_cases h0 : j = 0
  · subst h0; simp [testBit_zero_even hev]
  · by_cases h63 : 63 ≤ j
    · simp [testBit_high_false hlt h63]
    · have : 1 ≤ j ∧ j ≤ 62 := by omega
      simp [this]

theorem testBit_succ_even {n : Nat} (hev : n % 2 = 0) (j : Nat) :
    (n + 1).testBit j = (decide (j = 0) || n.testBit j) := by
  cases j with
  | zero => rw [Nat.testBit_zero]; simp; omega
  | succ i =>
    rw [Nat.testBit_succ, Nat.testBit_succ]
    have : (n + 1) / 2 = n / 2 := by omega
    simp [this]

theorem land_strip_odd {n : Nat} (hlt : n < 9223372036854775808) (hev : n % 2 = 0) :
    Nat.land (n + 1) 9223372036854775806 = n := by
  apply Nat.eq_of_testBit_eq
  intro j
  show ((n + 1) &&& 9223372036854775806).testBit j = n.testBit j
  rw [Nat.testBit_and, testBit_mask_strip, testBit_succ_even hev]
  by_cases h0 : j = 0
  · subst h0; simp [testBit_zero_even hev]
  · by_cases h63 : 63 ≤ j
    · simp [testBit_high_false hlt h63, h0]
    · have : 1 ≤ j ∧ j ≤ 62 := by omega
      simp [this, h0]

theorem land_mark_even {n : Nat} (hlt : n < 9223372036854775808) (hev : n % 2 = 0) :
    Nat.land n 9223372036854775809 = 0 := by
  apply Nat.eq_of_testBit_eq
  intro j
  show (n &&& 9223372036854775809).testBit j = (0 : Nat).testBit j
  rw [Nat.testBit_and, testBit_mask_mark]
  by_cases h0 : j = 0
  · subst h0; simp [testBit_zero_even hev]
  · by_cases h63 : 63 ≤ j
    · simp [testBit_high_false hlt h63]
    · have : ¬ (j = 0 ∨ j = 63) := by omega
      simp [this]

theorem land_mark_odd {n : Nat} (hlt : n < 9223372036854775808) (hev : n % 2 = 0) :
    Nat.land (n + 1) 9223372036854775809 = 1 := by
  apply Nat.eq_of_testBit_eq
  intro j
  show ((n + 1) &&& 9223372036854775809).testBit j = (1 : Nat).testBit j
  rw [Nat.testBit_and, testBit_mask_mark, testBit_succ_even hev]
  by_cases h0 : j = 0
  · subst h0; simp
  · by_cases h63 : 63 ≤ j
    · have h1 : (1 : Nat).testBit j = false :=
        Nat.testBit_lt_two_pow (Nat.one_lt_two_pow h0)
      simp [testBit_high_false hlt h63, h0, h1]
    · have : ¬ (j = 0 ∨ j = 63) := by omega
      have h1 : (1 : Nat).testBit j = false :=
        Nat.testBit_lt_two_pow (Nat.one_lt_two_pow h0)
      simp [this, h1]

theorem toLong_of_range {x : Int} (h0 : LONG_MIN ≤ x) (h1 : x ≤ LONG_MAX) : toLong x = x := by
  unfold toLong LONG_MIN LONG_MAX at *; omega

theorem unset_mark_validRef {p : Int} (h : validRef p) : unset_mark p = p := by
  obtain ⟨h0, h1, h2⟩ := h
  unfold unset_mark land64
  rw [bits64_mask_strip, bits64_of_nonneg h0 h1]
  have hlt : p.toNat < 9223372036854775808 := by unfold LONG_MAX at h1; omega
  have hev : p.toNat % 2 = 0 := by omega
  rw [land_strip_even hlt hev]
  rw [toLong_of_range] <;> simp [LONG_MIN, LONG_MAX] <;> omega

theorem is_marked_ref_validRef {p : Int} (h : validRef p) : is_marked_ref p = 0 := by
  obtain ⟨h0, h1, h2⟩ := h
  unfold is_marked_ref land64
  rw [bits64_mask_mark, bits64_of_nonneg h0 h1]
  have hlt : p.toNat < 9223372036854775808 := by unfold LONG_MAX at h1; omega
  have hev : p.toNat % 2 = 0 := by omega
  rw [land_mark_even hlt hev]
  decide

theorem set_mark_validRef {p : Int} (h : validRef p) : set_mark p = p + 1 := by
  unfold set_mark
  rw [unset_mark_validRef h]
  obtain ⟨h0, h1, h2⟩ := h
  simp only [LONG_MAX] at h1
  apply toLong_of_range <;> simp only [LONG_MIN, LONG_MAX] <;> omega

theorem unset_mark_succ_validRef {p : Int} (h : validRef p) : unset_mark (p + 1) = p := by
  obtain ⟨h0, h1, h2⟩ := h
  have h1' : p + 1 ≤ LONG_MAX := by unfold LONG_MAX at *; omega
  unfold unset_mark land64
  rw [bits64_mask_strip, bits64_of_nonneg (by omega) h1']
  have hlt : p.toNat < 9223372036854775808 := by unfold LONG_MAX at h1; omega
  have hev : p.toNat % 2 = 0 := by omega
  have : (p + 1).toNat = p.toNat + 1 := by omega
  rw [this, land_strip_odd hlt hev]
  rw [toLong_of_range] <;> simp [LONG_MIN, LONG_MAX] <;> omega

theorem is_marked_ref_succ_validRef {p : Int} (h : validRef p) : is_marked_ref (p + 1) = 1 := by
  obtain ⟨h0, h1, h2⟩ := h
  have h1' : p + 1 ≤ LONG_MAX := by unfold LONG_MAX at *; omega
  unfold is_marked_ref land64
  rw [bits64_mask_mark, bits64_of_nonneg (by omega) h1']
  have hlt : p.toNat < 9223372036854775808 := by unfold LONG_MAX at h1; omega
  have hev : p.toNat % 2 = 0 := by omega
  have : (p + 1).toNat = p.toNat + 1 := by omega
  rw [this, land_mark_odd hlt hev]
  decide

/-! ## Chains -/

theorem seg_mem {s : State} {l : List Cell} {a b : Int} (h : seg s a l b) :
    ∀ c ∈ l, c.1 ≠ 0 ∧ s.mem c.1 = some c.2 := by
  induction l generalizing a with
  | nil => intro c hc; cases hc
  | cons x xs ih =>
    obtain ⟨h1, h2, h3, h4⟩ := h
    intro c hc
    rcases List.mem_cons.mp hc with rfl | hc
    · subst h1; exact ⟨h2, h3⟩
    · exact ih h4 c hc

theorem seg_load {s : State} {l : List Cell} {a b : Int} (h : seg s a l b) {c : Cell}
    (hc : c ∈ l) : load s c.1 = some c.2 := by
  have := seg_mem h c hc
  simp [load, this.1, this.2]

theorem seg_append {s : State} {l1 l2 : List Cell} {a b : Int} :
    seg s a (l1 ++ l2) b ↔ ∃ m, seg s a l1 m ∧ seg s m l2 b := by
  induction l1 generalizing a with
  | nil => simp [seg]
  | cons x xs ih =>
    show (a = x.1 ∧ a ≠ 0 ∧ s.mem a = some x.2 ∧
        seg s (get_unmarked_ref x.2.next) (xs ++ l2) b) ↔
      ∃ m, (a = x.1 ∧ a ≠ 0 ∧ s.mem a = some x.2 ∧
        seg s (get_unmarked_ref x.2.next) xs m) ∧ seg s m l2 b
    rw [ih]
    constructor
    · rintro ⟨h1, h2, h3, m, h4, h5⟩
      exact ⟨m, ⟨h1, h2, h3, h4⟩, h5⟩
    · rintro ⟨m, ⟨h1, h2, h3, h4⟩, h5⟩
      exact ⟨h1, h2, h3, m, h4, h5⟩

theorem seg_frame {s t : State} {l : List Cell} {a b : Int}
    (hfr : ∀ c ∈ l, t.mem c.1 = s.mem c.1) (h : seg s a l b) : seg t a l b := by
  induction l generalizing a with
  | nil => exact h
  | cons x xs ih =>
    obtain ⟨h1, h2, h3, h4⟩ := h
    refine ⟨h1, h2, ?_, ih (fun c hc => hfr c (List.mem_cons_of_mem _ hc)) h4⟩
    rw [h1, hfr x (List.mem_cons_self _ _), ← h1, h3]

/-- Two reachable nodes with different keys sit at different addresses. -/
theorem addr_ne_of_val_ne {s : State} {l : List Cell} {a b : Int} (h : seg s a l b)
    {x y : Cell} (hx : x ∈ l) (hy : y ∈ l) (hne : x.2.val ≠ y.2.val) : x.1 ≠ y.1 := by
  intro he
  have h1 := (seg_mem h x hx).2
  have h2 := (seg_mem h y hy).2
  rw [he, h2] at h1
  exact hne (by rw [Option.some.inj h1])

/-- A list with an element failing `p` splits at the first such element. -/
theorem split_first {α : Type} (p : α → Prop) [DecidablePred p] (l : List α)
    (h : ∃ x ∈ l, ¬ p x) :
    ∃ l1 c l2, l = l1 ++ c :: l2 ∧ (∀ x ∈ l1, p x) ∧ ¬ p c := by
  induction l with
  | nil => obtain ⟨x, hx, _⟩ := h; cases hx
  | cons y ys ih =>
    by_cases hy : p y
    · have : ∃ x ∈ ys, ¬ p x := by
        obtain ⟨x, hx, hpx⟩ := h
        rcases List.mem_cons.mp hx with rfl | hx
        · exact absurd hy hpx
        · exact ⟨x, hx, hpx⟩
      obtain ⟨l1, c, l2, e, h1, h2⟩ := ih this
      refine ⟨y :: l1, c, l2, by simp [e], ?_, h2⟩
      intro x hx
      rcases List.mem_cons.mp hx with rfl | hx
      · exact hy
      · exact h1 x hx
    · exact ⟨[], y, ys, rfl, by simp, hy⟩

/-! ## The walks -/

theorem find_walk_spec {s : State} {k : Int} (l1 : List Cell) (c : Cell) (l2 : List Cell)
    {a b : Int} {f : Nat} (h : seg s a (l1 ++ c :: l2) b)
    (hlt : ∀ x ∈ l1, x.2.val < k) (hc : ¬ c.2.val < k) (hf : l1.length < f) :
    find_walk f s a k = some c.1 := by
  induction l1 generalizing a f with
  | nil =>
    obtain ⟨h1, h2, h3, _⟩ := h
    subst h1
    cases f with
    | zero => simp at hf
    | succ n => simp [find_walk, load, h2, h3, hc]
  | cons x xs ih =>
    obtain ⟨h1, h2, h3, h4⟩ := h
    cases f with
    | zero => simp at hf
    | succ n =>
      have hx : x.2.val < k := hlt x (List.mem_cons_self _ _)
      simp only [find_walk, load, h2, h3, if_false, hx, if_true]
      exact ih h4 (fun y hy => hlt y (List.mem_cons_of_mem _ hy))
        (by simpa using hf)

theorem walk_spec {s : State} {k : Int} (l1 : List Cell) (c : Cell) (l2 : List Cell)
    {a b : Int} {f : Nat} (pc : Cell) (h : seg s a (l1 ++ c :: l2) b)
    (hlt : ∀ x ∈ l1, x.2.val < k) (hc : ¬ c.2.val < k) (hf : l1.length < f) :
    walk f s pc.1 a k = some ((lastOr pc l1).1, c.1) := by
  induction l1 generalizing a f pc with
  | nil =>
    obtain ⟨h1, h2, h3, _⟩ := h
    subst h1
    cases f with
    | zero => simp at hf
    | succ n => simp [walk, load, h2, h3, hc, lastOr]
  | cons x xs ih =>
    obtain ⟨h1, h2, h3, h4⟩ := h
    cases f with
    | zero => simp at hf
    | succ n =>
      have hx : x.2.val < k := hlt x (List.mem_cons_self _ _)
      simp only [walk, load, h2, h3, if_false, hx, if_true]
      have := ih x h4 (fun y hy => hlt y (List.mem_cons_of_mem _ hy))
        (by simpa using hf)
      rw [← h1] at this
      exact this

/-! ## `parse_find` -/

/-- On a strictly increasing chain holding some key not below `k`, `parse_find` returns 1 exactly
when a node of the chain has key `k` and an unmarked successor slot. -/
theorem parse_find_chain {s : State} {cells : List Cell} {b k : Int} {f : Nat}
    (hseg : seg s s.head cells b) (hinc : increasing cells)
    (hbound : ∃ x ∈ cells, ¬ x.2.val < k) (hfuel : cells.length ≤ f) :
    ∃ r, parse_find f s k = some (r, s) ∧ (r = 0 ∨ r = 1) ∧
      (r = 1 ↔ ∃ c ∈ cells, c.2.val = k ∧ is_marked_ref c.2.next = 0) := by
  obtain ⟨l1, c, l2, e, h1, h2⟩ := split_first (fun x : Cell => x.2.val < k) cells hbound
  subst e
  have hw : find_walk f s s.head k = some c.1 :=
    find_walk_spec l1 c l2 hseg h1 h2 (by simp at hfuel; omega)
  have hl : load s c.1 = some c.2 := seg_load hseg (by simp)
  refine ⟨if c.2.val = k ∧ is_marked_ref c.2.next = 0 then 1 else 0, ?_, ?_, ?_⟩
  · simp [parse_find, hw, hl]
  · by_cases hh : c.2.val = k ∧ is_marked_ref c.2.next = 0 <;> simp [hh]
  · constructor
    · intro hr
      have hh : c.2.val = k ∧ is_marked_ref c.2.next = 0 := by
        by_contra hne
        simp [hne] at hr
      exact ⟨c, by simp, hh⟩
    · rintro ⟨x, hx, hxk, hxm⟩
      have hxc : x = c := by
        rcases List.mem_append.mp hx with hx1 | hx2
        · have := h1 x hx1
          omega
        · rcases List.mem_cons.mp hx2 with rfl | hx3
          · rfl
          · have hp := (List.pairwise_append.mp hinc).2.1
            have := List.rel_of_pairwise_cons hp hx3
            omega
      subst hxc
      simp [hxk, hxm]

/-- C1: on every state whose chain from `set->head` is strictly increasing from the head
sentinel to the tail sentinel (marked successor slots allowed between them), and for every key
strictly between the sentinel keys, `parse_find` returns 1 if and only if some reachable node
holds that key with an unmarked successor slot, returns 0 otherwise, and leaves the state as it
was. -/
theorem parse_find_decides_membership (s : State) (hd : Cell) (mid : List Cell) (tl : Cell)
    (k : Int) (fuel : Nat) (hwf : SortedChain s hd mid tl)
    (_hlo : hd.2.val < k) (hhi : k < tl.2.val) (hfuel : mid.length + 2 ≤ fuel) :
    ∃ r, parse_find fuel s k = some (r, s) ∧
      (r = 1 ↔ ∃ c ∈ hd :: mid ++ [tl], c.2.val = k ∧ is_marked_ref c.2.next = 0) ∧
      (r = 0 ↔ ¬ ∃ c ∈ hd :: mid ++ [tl], c.2.val = k ∧ is_marked_ref c.2.next = 0) := by
  obtain ⟨hseg, _, _, hinc⟩ := hwf
  obtain ⟨r, h1, h2, h3⟩ := parse_find_chain (k := k) (f := fuel) hseg hinc
    ⟨tl, by simp, by omega⟩ (by simp; omega)
  refine ⟨r, h1, h3, ?_⟩
  rw [← h3]
  rcases h2 with h | h <;> simp [h]

theorem markedState_sorted : SortedChain markedState markedHd markedMid markedTl := by
  refine ⟨by decide, rfl, by decide, ?_⟩
  simp [increasing, markedHd, markedMid, markedTl]

theorem parse_find_decides_membership_witness :
    SortedChain markedState markedHd markedMid markedTl ∧
    ∃ r, parse_find 4 markedState 7 = some (r, markedState) ∧
      (r = 1 ↔ ∃ c ∈ markedHd :: markedMid ++ [markedTl],
        c.2.val = 7 ∧ is_marked_ref c.2.next = 0) ∧
      (r = 0 ↔ ¬ ∃ c ∈ markedHd :: markedMid ++ [markedTl],
        c.2.val = 7 ∧ is_marked_ref c.2.next = 0) :=
  ⟨markedState_sorted,
    parse_find_decides_membership markedState markedHd markedMid markedTl 7 4
      markedState_sorted (by decide) (by decide) (by decide)⟩

/-! ## Loads, stores and locks -/

theorem load_eq_some {s : State} {p : Int} {n : node_l} (h : load s p = some n) :
    p ≠ 0 ∧ s.mem p = some n := by
  unfold load at h
  by_cases hp : p = 0
  · simp [hp] at h
  · simpa [hp] using h

theorem load_store_same {s : State} {p : Int} {n : node_l} (hp : p ≠ 0) :
    load (store s p n) p = some n := by
  simp [load, store, hp]

theorem load_store_ne {s : State} {p q : Int} {n : node_l} (hq : q ≠ p) :
    load (store s p n) q = load s q := by
  simp [load, store, Function.update_noteq hq]

theorem store_store_same (s : State) (p : Int) (n m : node_l) :
    store (store s p n) p m = store s p m := by
  simp [store]

theorem store_comm (s : State) {p q : Int} (n m : node_l) (h : p ≠ q) :
    store (store s p n) q m = store (store s q m) p n := by
  simp only [store]
  congr 1
  exact Function.update_comm h _ _ _

theorem state_ext {s t : State} (hm : ∀ p, s.mem p = t.mem p) (hh : s.head = t.head) :
    s = t := by
  cases s; cases t
  simp only at hm hh
  subst hh
  congr
  exact funext hm

theorem lock_ref_ok {s : State} {p next : Int} {nd : node_l} (hl : load s p = some nd)
    (hm : is_marked_ref nd.next = 0) (he : nd.next = next) (hk : nd.lock = false) :
    lock_ref s p next = some (1, store s p ⟨nd.val, nd.next, true⟩) := by
  have hp := (load_eq_some hl).1
  subst he
  simp [lock_ref, hl, hm, LOCK, hk, load_store_same hp]

theorem lock_val_ok {s : State} {p k : Int} {nd t : node_l} (hl : load s p = some nd)
    (hm : is_marked_ref nd.next = 0) (ht : load s nd.next = some t) (hne : nd.next ≠ p)
    (he : t.val = k) (hk : nd.lock = false) :
    lock_val s p k = some (1, store s p ⟨nd.val, nd.next, true⟩) := by
  have hp := (load_eq_some hl).1
  have h1 : val_check s p k = some false := by
    simp [val_check, hl, hm, ht, he]
  have h2 : val_check (store s p ⟨nd.val, nd.next, true⟩) p k = some false := by
    simp [val_check, load_store_same hp, hm, load_store_ne hne, ht, he]
  simp [lock_val, h1, LOCK, hl, hk, h2]

/-! ## One iteration of the retry loops -/

theorem insert_body_present {s : State} {d : node_l} {P c : Cell} {a k : Int} {fuel : Nat}
    (hhd : load s s.head = some d)
    (hwalk : walk fuel s s.head (get_unmarked_ref d.next) k = some (P.1, c.1))
    (hc : load s c.1 = some c.2) (heq : c.2.val = k) :
    insert_body fuel s a k = some (.ret 0 s) := by
  simp [insert_body, hhd, hwalk, hc, heq]

theorem insert_body_absent {s : State} {d : node_l} {P c : Cell} {a k : Int} {fuel : Nat}
    (hhd : load s s.head = some d)
    (hwalk : walk fuel s s.head (get_unmarked_ref d.next) k = some (P.1, c.1))
    (hP : load s P.1 = some P.2) (hc : load s c.1 = some c.2)
    (hPm : is_marked_ref P.2.next = 0) (hPc : P.2.next = c.1) (hPl : P.2.lock = false)
    (hne : c.2.val ≠ k) (ha : a ≠ P.1) :
    insert_body fuel s a k = some (.ret 1 (insert_post s P a k c.1)) := by
  have hp := (load_eq_some hP).1
  have hlock := lock_ref_ok hP hPm hPc hPl
  have hPa : P.1 ≠ a := fun h => ha h.symm
  simp only [insert_body, hhd, hwalk, hc, hne, if_false, hlock, new_node_l]
  simp only [one_ne_zero, if_false, load_store_ne hPa, load_store_same hp, UNLOCK,
    store_store_same, insert_post]
  rw [store_comm _ _ _ hPa, store_store_same]

theorem delete_body_absent {s : State} {d : node_l} {P c : Cell} {k : Int} {fuel : Nat}
    (hhd : load s s.head = some d)
    (hwalk : walk fuel s s.head (get_unmarked_ref d.next) k = some (P.1, c.1))
    (hc : load s c.1 = some c.2) (hne : c.2.val ≠ k) :
    delete_body fuel s k = some (.ret 0 s) := by
  simp [delete_body, hhd, hwalk, hc, hne]

theorem delete_body_present {s : State} {d : node_l} {P c : Cell} {k next : Int}
    {fuel : Nat} (hhd : load s s.head = some d)
    (hwalk : walk fuel s s.head (get_unmarked_ref d.next) k = some (P.1, c.1))
    (hP : load s P.1 = some P.2) (hc : load s c.1 = some c.2)
    (hPm : is_marked_ref P.2.next = 0) (hPc : P.2.next = c.1) (hPl : P.2.lock = false)
    (hcm : is_marked_ref c.2.next = 0) (hcn : c.2.next = next)
    (hcu : get_unmarked_ref c.2.next = next) (hcl : c.2.lock = false)
    (heq : c.2.val = k) (hne : c.1 ≠ P.1) :
    delete_body fuel s k = some (.ret 1 (delete_post s P c next)) := by
  obtain ⟨pa, pv, pn, pl⟩ := P
  obtain ⟨ca, cv, cn, cl⟩ := c
  simp only at hwalk hP hc hPm hPc hPl hcm hcn hcu hcl heq hne
  subst hPc hPl hcn hcl heq
  have hp := (load_eq_some hP).1
  have hc0 := (load_eq_some hc).1
  have hlv := lock_val_ok hP hPm hc hne rfl rfl
  have hc1 : load (store s pa ⟨pv, pn, true⟩) pn = some ⟨cv, cn, false⟩ := by
    rw [load_store_ne hne]; exact hc
  have hlr := lock_ref_ok hc1 hcm rfl rfl
  simp only at hlv hlr
  have hPne : pa ≠ pn := fun h => hne h.symm
  simp only [delete_body, hhd, hwalk, hc, ne_eq, not_true_eq_false, if_false, hlv,
    one_ne_zero, load_store_same hp, hcu, hlr, load_store_same hc0, load_store_ne hPne,
    store_store_same, UNLOCK, load_store_ne hne, delete_post]
  refine congrArg (fun t => some (Iter.ret 1 t)) (state_ext (fun p => ?_) rfl)
  by_cases h1 : p = pa <;> by_cases h2 : p = pn <;>
    simp [store, Function.update, h1, h2, hne, hPne]

theorem parse_insert_of_body {s t : State} {a k r : Int} {fuel : Nat}
    (h : insert_body (fuel + 1) s a k = some (.ret r t)) :
    parse_insert (fuel + 1) s a k = some (r, t) := by
  rw [parse_insert, h]

theorem parse_delete_of_body {s t : State} {k r : Int} {fuel : Nat}
    (h : delete_body (fuel + 1) s k = some (.ret r t)) :
    parse_delete (fuel + 1) s k = some (r, t) := by
  rw [parse_delete, h]

/-! ## Quiescent chains -/

theorem WFQ_iff_QList {s : State} {hd tl : Cell} {mid : List Cell} :
    WFQ s hd mid tl ↔ QList s (hd :: mid ++ [tl]) := by
  constructor
  · rintro ⟨⟨h1, _, _, h4⟩, h5, h6⟩
    exact ⟨h1, h4, h5, h6⟩
  · rintro ⟨h1, h4, h5, h6⟩
    have htl := h5 tl (by simp)
    have hhd := h5 hd (by simp)
    refine ⟨⟨h1, ?_, hhd.2.2, h4⟩, h5, h6⟩
    have h1' : seg s s.head ((hd :: mid) ++ [tl]) 0 := by simpa using h1
    obtain ⟨m, _, hm⟩ := seg_append.mp h1'
    have : get_unmarked_ref tl.2.next = 0 := hm.2.2.2
    rw [get_unmarked_ref, unset_mark_validRef htl.2.1] at this
    exact this

theorem increasing_append {l1 l2 : List Cell} :
    increasing (l1 ++ l2) ↔
      increasing l1 ∧ increasing l2 ∧ ∀ x ∈ l1, ∀ y ∈ l2, x.2.val < y.2.val :=
  List.pairwise_append

theorem increasing_cons {x : Cell} {l : List Cell} :
    increasing (x :: l) ↔ (∀ y ∈ l, x.2.val < y.2.val) ∧ increasing l :=
  List.pairwise_cons

/-- The pair `(pred, curr)` at which the walk of `parse_insert` and `parse_delete` stops. -/
theorem anchor {s : State} {hd : Cell} {rest : List Cell} {k : Int} {f : Nat}
    (hq : QList s (hd :: rest)) (hbound : ∃ x ∈ rest, ¬ x.2.val < k)
    (hfuel : rest.length < f) :
    ∃ l0 P c l2, hd :: rest = l0 ++ P :: c :: l2 ∧
      (∀ x ∈ l0 ++ [P], x = hd ∨ x.2.val < k) ∧ ¬ c.2.val < k ∧
      walk f s s.head (get_unmarked_ref hd.2.next) k = some (P.1, c.1) ∧
      c ∈ rest ∧ ∀ x ∈ rest, ¬ x.2.val < k → c.2.val ≤ x.2.val := by
  obtain ⟨l1, c, l2, e, h1, h2⟩ := split_first (fun x : Cell => x.2.val < k) rest hbound
  subst e
  obtain ⟨hseg, hinc, _, _⟩ := hq
  obtain ⟨hh, _, _, hrest⟩ := hseg
  have hw := walk_spec (k := k) (f := f) l1 c l2 hd hrest h1 h2
    (by simp at hfuel; omega)
  rw [← hh] at hw
  have hsplit : ∀ (pc : Cell) (l : List Cell), ∃ l0, pc :: l = l0 ++ [lastOr pc l] ∧
      ∀ x ∈ l0 ++ [lastOr pc l], x = pc ∨ x ∈ l := by
    intro pc l
    induction l generalizing pc with
    | nil => exact ⟨[], rfl, by simp [lastOr]⟩
    | cons y ys ih =>
      obtain ⟨l0, e, hm⟩ := ih y
      refine ⟨pc :: l0, by simp [lastOr, ← e], ?_⟩
      intro x hx
      simp only [lastOr, List.cons_append, List.mem_cons] at hx ⊢
      rcases hx with rfl | hx
      · exact Or.inl rfl
      · rcases hm x hx with rfl | h
        · exact Or.inr (Or.inl rfl)
        · exact Or.inr (Or.inr h)
  obtain ⟨l0, e, hm⟩ := hsplit hd l1
  refine ⟨l0, lastOr hd l1, c, l2, ?_, ?_, h2, hw, by simp, ?_⟩
  rotate_left 2
  · intro x hx hxk
    have hx' : x ∈ l1 ∨ x = c ∨ x ∈ l2 := by simpa using hx
    rcases hx' with h | rfl | h
    · exact absurd (h1 x h) hxk
    · exact le_refl _
    · have hi1 := (increasing_cons.mp hinc).2
      have hi2 := (increasing_append.mp hi1).2.1
      exact le_of_lt ((increasing_cons.mp hi2).1 x h)
  · calc hd :: (l1 ++ c :: l2) = (hd :: l1) ++ c :: l2 := rfl
      _ = (l0 ++ [lastOr hd l1]) ++ c :: l2 := by rw [e]
      _ = l0 ++ lastOr hd l1 :: c :: l2 := by simp
  · intro x hx
    rcases hm x hx with rfl | h
    · exact Or.inl rfl
    · exact Or.inr (h1 x h)

/-- What a quiescent chain says about two adjacent nodes `P`, `c`. -/
theorem QList_adjacent {s : State} {l0 l2 : List Cell} {P c : Cell}
    (hq : QList s (l0 ++ P :: c :: l2)) :
    seg s s.head l0 P.1 ∧ seg s c.1 (c :: l2) 0 ∧ P.2.next = c.1 ∧
      load s P.1 = some P.2 ∧ load s c.1 = some c.2 ∧ P.2.lock = false ∧
      c.2.lock = false ∧ P.2.val < c.2.val ∧ c.1 ≠ P.1 := by
  obtain ⟨hseg, hinc, hval, hlock⟩ := hq
  obtain ⟨m, hs0, hs1⟩ := seg_append.mp hseg
  obtain ⟨e1, _, _, hs2⟩ := hs1
  have hP := hval P (by simp)
  have hPc : P.2.next = c.1 := by
    have := hs2.1
    rwa [get_unmarked_ref, unset_mark_validRef hP.2.1] at this
  have hlP : load s P.1 = some P.2 := seg_load hseg (by simp)
  have hlc : load s c.1 = some c.2 := seg_load hseg (by simp)
  have hlt : P.2.val < c.2.val := by
    have := (increasing_append.mp hinc).2.1
    exact (increasing_cons.mp this).1 c (by simp)
  refine ⟨e1 ▸ hs0, ?_, hPc, hlP, hlc, hlock _ _ (load_eq_some hlP).2,
    hlock _ _ (load_eq_some hlc).2, hlt, ?_⟩
  · have := hs2
    rw [get_unmarked_ref, unset_mark_validRef hP.2.1, hPc] at this
    exact this
  · exact addr_ne_of_val_ne hseg (by simp) (by simp) (by omega)

/-! ## The state after an update -/

theorem insert_post_mem {s : State} {P : Cell} {a k c : Int} (ha : a ≠ P.1) :
    (insert_post s P a k c).mem P.1 = some ⟨P.2.val, a, false⟩ ∧
      (insert_post s P a k c).mem a = some ⟨k, c, false⟩ ∧
      (∀ p, p ≠ P.1 → p ≠ a → (insert_post s P a k c).mem p = s.mem p) ∧
      (insert_post s P a k c).head = s.head := by
  refine ⟨by simp [insert_post, store], by simp [insert_post, store, ha], ?_, rfl⟩
  intro p h1 h2
  simp [insert_post, store, h1, h2]

theorem delete_post_mem {s : State} {P c : Cell} {q : Int} (hne : c.1 ≠ P.1) :
    (delete_post s P c q).mem P.1 = some ⟨P.2.val, q, false⟩ ∧
      (delete_post s P c q).mem c.1 = some ⟨c.2.val, get_marked_ref q, false⟩ ∧
      (∀ p, p ≠ P.1 → p ≠ c.1 → (delete_post s P c q).mem p = s.mem p) ∧
      (delete_post s P c q).head = s.head := by
  refine ⟨by simp [delete_post, store], by simp [delete_post, store, hne], ?_, rfl⟩
  intro p h1 h2
  simp [delete_post, store, h1, h2]

/-- Linking a fresh node between two adjacent nodes of a quiescent chain gives a quiescent
chain. -/
theorem insert_QList {s : State} {l0 l2 : List Cell} {P c : Cell} {a k : Int}
    (hq : QList s (l0 ++ P :: c :: l2)) (ha : Fresh s a)
    (hPk : P.2.val < k) (hkc : k < c.2.val) :
    QList (insert_post s P a k c.1)
      (l0 ++ (P.1, ⟨P.2.val, a, false⟩) :: (a, ⟨k, c.1, false⟩) :: c :: l2) := by
  obtain ⟨hs0, hs1, hPc, hlP, hlc, _, _, hlt, hne⟩ := QList_adjacent hq
  obtain ⟨hseg, hinc, hval, hlock⟩ := hq
  obtain ⟨hav, ha0, hamem⟩ := ha
  have haP : a ≠ P.1 := by
    intro h
    rw [h, (load_eq_some hlP).2] at hamem
    cases hamem
  obtain ⟨m1, m2, m3, m4⟩ := insert_post_mem (s := s) (P := P) (a := a) (k := k) (c := c.1) haP
  have hfresh : ∀ x ∈ l0 ++ P :: c :: l2, x.1 ≠ a := by
    intro x hx h
    rw [← h, (seg_mem hseg x hx).2] at hamem
    cases hamem
  have hinc' := increasing_append.mp hinc
  have hincP := increasing_cons.mp hinc'.2.1
  have hincc := increasing_cons.mp hincP.2
  have hfr0 : ∀ x ∈ l0, (insert_post s P a k c.1).mem x.1 = s.mem x.1 := by
    intro x hx
    refine m3 _ ?_ (hfresh x (by simp [hx]))
    exact addr_ne_of_val_ne hseg (by simp [hx]) (by simp)
      (ne_of_lt (hinc'.2.2 x hx P (by simp)))
  have hfr2 : ∀ x ∈ c :: l2, (insert_post s P a k c.1).mem x.1 = s.mem x.1 := by
    intro x hx
    refine m3 _ ?_ (hfresh x (by simp at hx; rcases hx with rfl | h <;> simp [*]))
    exact addr_ne_of_val_ne hseg (by simp at hx; rcases hx with rfl | h <;> simp [*])
      (by simp) (ne_of_gt (hincP.1 x hx))
  refine ⟨?_, ?_, ?_, ?_⟩
  · rw [m4]
    refine seg_append.mpr ⟨P.1, seg_frame hfr0 hs0, rfl, (load_eq_some hlP).1, m1, ?_⟩
    show seg _ (get_unmarked_ref a) _ 0
    rw [get_unmarked_ref, unset_mark_validRef hav]
    refine ⟨rfl, ha0, m2, ?_⟩
    show seg _ (get_unmarked_ref c.1) _ 0
    rw [get_unmarked_ref, unset_mark_validRef (hval c (by simp)).1]
    exact seg_frame hfr2 hs1
  · refine increasing_append.mpr ⟨hinc'.1, ?_, ?_⟩
    · refine increasing_cons.mpr ⟨?_, increasing_cons.mpr ⟨?_, hincP.2⟩⟩
      · intro y hy
        simp only [List.mem_cons] at hy
        rcases hy with rfl | rfl | hy
        · exact hPk
        · exact hlt
        · exact hincP.1 y (by simp [hy])
      · intro y hy
        simp only [List.mem_cons] at hy
        rcases hy with rfl | hy
        · exact hkc
        · exact lt_trans hkc (hincc.1 y hy)
    · intro x hx y hy
      have hxP := hinc'.2.2 x hx P (by simp)
      simp only [List.mem_cons] at hy
      rcases hy with rfl | rfl | rfl | hy
      · exact hxP
      · exact lt_trans hxP hPk
      · exact hinc'.2.2 x hx y (by simp)
      · exact hinc'.2.2 x hx y (by simp [hy])
  · intro x hx
    simp only [List.mem_append, List.mem_cons] at hx
    rcases hx with hx | rfl | rfl | rfl | hx
    · exact hval x (by simp [hx])
    · exact ⟨(hval P (by simp)).1, hav, is_marked_ref_validRef hav⟩
    · exact ⟨hav, (hval c (by simp)).1, is_marked_ref_validRef (hval c (by simp)).1⟩
    · exact hval x (by simp)
    · exact hval x (by simp [hx])
  · intro p n hp
    by_cases h1 : p = P.1
    · rw [h1, m1] at hp
      cases hp; rfl
    · by_cases h2 : p = a
      · rw [h2, m2] at hp
        cases hp; rfl
      · rw [m3 p h1 h2] at hp
        exact hlock p n hp

/-- Marking and bypassing a node of a quiescent chain gives a quiescent chain. -/
theorem delete_QList {s : State} {l0 l2 : List Cell} {P c n : Cell}
    (hq : QList s (l0 ++ P :: c :: n :: l2)) :
    QList (delete_post s P c n.1) (l0 ++ (P.1, ⟨P.2.val, n.1, false⟩) :: n :: l2) := by
  obtain ⟨hs0, _, hPc, hlP, hlc, _, _, hlt, hne⟩ := QList_adjacent hq
  have hq' : QList s ((l0 ++ [P]) ++ c :: n :: l2) := by simpa using hq
  obtain ⟨_, hs1, hcn, _, hln, _, _, hlt', hne'⟩ := QList_adjacent hq'
  obtain ⟨hseg, hinc, hval, hlock⟩ := hq
  obtain ⟨m1, m2, m3, m4⟩ := delete_post_mem (s := s) (P := P) (c := c) (q := n.1) hne
  have hinc' := increasing_append.mp hinc
  have hincP := increasing_cons.mp hinc'.2.1
  have hincc := increasing_cons.mp hincP.2
  have hfr0 : ∀ x ∈ l0, (delete_post s P c n.1).mem x.1 = s.mem x.1 := by
    intro x hx
    refine m3 _ ?_ ?_
    · exact addr_ne_of_val_ne hseg (by simp [hx]) (by simp)
        (ne_of_lt (hinc'.2.2 x hx P (by simp)))
    · exact addr_ne_of_val_ne hseg (by simp [hx]) (by simp)
        (ne_of_lt (hinc'.2.2 x hx c (by simp)))
  have hfr2 : ∀ x ∈ n :: l2, (delete_post s P c n.1).mem x.1 = s.mem x.1 := by
    intro x hx
    have hx' : x ∈ l0 ++ P :: c :: n :: l2 := by
      simp only [List.mem_cons] at hx
      rcases hx with rfl | h <;> simp [*]
    refine m3 _ ?_ ?_
    · exact addr_ne_of_val_ne hseg hx' (by simp)
        (ne_of_gt (hincP.1 x (List.mem_cons_of_mem _ hx)))
    · exact addr_ne_of_val_ne hseg hx' (by simp) (ne_of_gt (hincc.1 x hx))
  have hs2 : seg s n.1 (n :: l2) 0 := hs1
  refine ⟨?_, ?_, ?_, ?_⟩
  · rw [m4]
    refine seg_append.mpr ⟨P.1, seg_frame hfr0 hs0, rfl, (load_eq_some hlP).1, m1, ?_⟩
    show seg _ (get_unmarked_ref n.1) _ 0
    rw [get_unmarked_ref, unset_mark_validRef (hval n (by simp)).1]
    exact seg_frame hfr2 hs2
  · refine increasing_append.mpr ⟨hinc'.1, ?_, ?_⟩
    · refine increasing_cons.mpr ⟨?_, hincc.2⟩
      intro y hy
      exact hincP.1 y (List.mem_cons_of_mem _ hy)
    · intro x hx y hy
      simp only [List.mem_cons] at hy
      rcases hy with rfl | rfl | hy
      · exact hinc'.2.2 x hx P (by simp)
      · exact hinc'.2.2 x hx y (by simp)
      · exact hinc'.2.2 x hx y (by simp [hy])
  · intro x hx
    simp only [List.mem_append, List.mem_cons] at hx
    rcases hx with hx | rfl | rfl | hx
    · exact hval x (by simp [hx])
    · exact ⟨(hval P (by simp)).1, (hval n (by simp)).1,
        is_marked_ref_validRef (hval n (by simp)).1⟩
    · exact hval x (by simp)
    · exact hval x (by simp [hx])
  · intro p nd hp
    by_cases h1 : p = P.1
    · rw [h1, m1] at hp
      cases hp; rfl
    · by_cases h2 : p = c.1
      · rw [h2, m2] at hp
        cases hp; rfl
      · rw [m3 p h1 h2] at hp
        exact hlock p nd hp

/-! ## Naming the sentinels again after an update -/

theorem suffix_snoc {α : Type} {mid l1 l2 : List α} {tl n : α}
    (h : mid ++ [tl] = l1 ++ n :: l2) : ∃ m2, n :: l2 = m2 ++ [tl] ∧ mid = l1 ++ m2 := by
  rcases List.eq_nil_or_concat l2 with rfl | ⟨l2', t, rfl⟩
  · have h' : mid ++ [tl] = l1 ++ [n] := h
    obtain ⟨e1, e2⟩ := List.append_inj' h' rfl
    refine ⟨[], ?_, by simp [e1]⟩
    simp at e2
    simp [e2]
  · have h' : mid ++ [tl] = (l1 ++ n :: l2') ++ [t] := by simpa using h
    obtain ⟨e1, e2⟩ := List.append_inj' h' rfl
    simp at e2
    exact ⟨n :: l2', by simp [e2], by simp [e1]⟩

/-- Replacing the nodes `old` after `P` by the nodes `nw` (and `P` by a node `Q` with the same
address and key) leaves a chain of the form head sentinel, middle, tail sentinel. -/
theorem retriple {hd tl : Cell} {mid l0 old l2 : List Cell} {P n : Cell}
    (h : hd :: mid ++ [tl] = l0 ++ P :: (old ++ n :: l2)) (Q : Cell) (nw : List Cell)
    (hQ1 : Q.1 = P.1) (hQ2 : Q.2.val = P.2.val) :
    ∃ hd1 mid1 A B, l0 ++ Q :: (nw ++ n :: l2) = hd1 :: mid1 ++ [tl] ∧
      hd1.1 = hd.1 ∧ hd1.2.val = hd.2.val ∧
      keys mid = A ++ keys old ++ B ∧ keys mid1 = A ++ keys nw ++ B := by
  cases l0 with
  | nil =>
    have h' : hd :: (mid ++ [tl]) = P :: (old ++ n :: l2) := h
    injection h' with e1 e2
    have e2' : mid ++ [tl] = old ++ n :: l2 := e2
    obtain ⟨m2, e3, e4⟩ := suffix_snoc e2'
    refine ⟨Q, nw ++ m2, [], keys m2, ?_, ?_, ?_, ?_, ?_⟩
    · simp [e3]
    · rw [hQ1, e1]
    · rw [hQ2, e1]
    · simp [e4, keys]
    · simp [keys]
  | cons h0 l0' =>
    have h' : hd :: (mid ++ [tl]) = h0 :: (l0' ++ P :: (old ++ n :: l2)) := h
    injection h' with e1 e2
    have e2' : mid ++ [tl] = (l0' ++ P :: old) ++ n :: l2 := by simpa using e2
    obtain ⟨m2, e3, e4⟩ := suffix_snoc e2'
    refine ⟨hd, l0' ++ Q :: (nw ++ m2), keys l0' ++ [P.2.val], keys m2, ?_, rfl, rfl, ?_, ?_⟩
    · simp [e3, ← e1]
    · simp [e4, keys]
    · simp [keys, hQ2]

theorem keys_nodup {s : State} {hd tl : Cell} {mid : List Cell} (h : WFQ s hd mid tl) :
    (keys mid).Nodup := by
  have hinc := h.1.2.2.2
  have h1 : increasing (mid ++ [tl]) := (increasing_cons.mp hinc).2
  have h2 : increasing mid := (increasing_append.mp h1).1
  show List.Pairwise (fun a b => a ≠ b) (mid.map (fun c => c.2.val))
  rw [List.pairwise_map]
  exact List.Pairwise.imp (fun hab => ne_of_lt hab) h2

theorem keys_between {s : State} {hd tl : Cell} {mid : List Cell} (h : WFQ s hd mid tl) :
    ∀ j ∈ keys mid, hd.2.val < j ∧ j < tl.2.val := by
  have hinc := h.1.2.2.2
  intro j hj
  obtain ⟨c, hc, rfl⟩ := List.mem_map.mp hj
  have h0 := increasing_cons.mp hinc
  have h1 := increasing_append.mp h0.2
  exact ⟨h0.1 c (by simp [hc]), h1.2.2 c hc tl (by simp)⟩

/-! ## The three operations on a well-formed quiescent set -/

/-- On a well-formed quiescent set `parse_find` decides membership in the key set. -/
theorem find_WFQ {s : State} {hd tl : Cell} {mid : List Cell} {j : Int} {fuel : Nat}
    (hwf : WFQ s hd mid tl) (hlo : hd.2.val < j) (hhi : j < tl.2.val)
    (hfuel : mid.length + 2 ≤ fuel) :
    parse_find fuel s j = some (if j ∈ keys mid then 1 else 0, s) := by
  obtain ⟨r, h1, h2, h3⟩ := parse_find_chain (k := j) (f := fuel) hwf.1.1 hwf.1.2.2.2
    ⟨tl, by simp, by omega⟩ (by simp; omega)
  have hiff : j ∈ keys mid ↔ ∃ c ∈ hd :: mid ++ [tl], c.2.val = j ∧ is_marked_ref c.2.next = 0 := by
    constructor
    · intro hj
      obtain ⟨c, hc, rfl⟩ := List.mem_map.mp hj
      exact ⟨c, by simp [hc], rfl, (hwf.2.1 c (by simp [hc])).2.2⟩
    · rintro ⟨c, hc, hcj, _⟩
      have hc' : c = hd ∨ c ∈ mid ∨ c = tl := by simpa using hc
      rcases hc' with rfl | hc | rfl
      · omega
      · exact List.mem_map.mpr ⟨c, hc, hcj⟩
      · omega
  rw [h1]
  by_cases hj : j ∈ keys mid
  · rw [if_pos hj, h3.mpr (hiff.mp hj)]
  · rw [if_neg hj]
    rcases h2 with h | h
    · rw [h]
    · exact absurd (hiff.mpr (h3.mp h)) hj

/-- A key present in the chain after the head sentinel: `parse_insert` returns 0 and leaves the
state as it was. -/
theorem insert_WFQ_present {s : State} {hd tl : Cell} {mid : List Cell} {a k : Int}
    {fuel : Nat} (hwf : WFQ s hd mid tl) (hk : ∃ c ∈ mid ++ [tl], c.2.val = k)
    (hfuel : mid.length + 2 ≤ fuel) :
    parse_insert fuel s a k = some (0, s) := by
  obtain ⟨n, rfl⟩ : ∃ n, fuel = n + 1 := ⟨fuel - 1, by omega⟩
  have hq := WFQ_iff_QList.mp hwf
  obtain ⟨x, hx, hxk⟩ := hk
  obtain ⟨l0, P, c, l2, e, _, hc, hw, _, hmin⟩ := anchor (k := k) (f := n + 1) hq
    ⟨x, hx, by omega⟩ (by simp; omega)
  have hq' : QList s (l0 ++ P :: c :: l2) := e ▸ hq
  have hl := seg_load hq'.1 (c := c) (by simp)
  have hhd := seg_load hq.1 (c := hd) (by simp)
  rw [← hq.1.1] at hhd
  have hcx := hmin x hx (by omega)
  exact parse_insert_of_body (insert_body_present hhd hw hl (by omega))

/-- A key absent from the chain after the head sentinel: `parse_delete` returns 0 and leaves the
state as it was. -/
theorem delete_WFQ_absent {s : State} {hd tl : Cell} {mid : List Cell} {k : Int}
    {fuel : Nat} (hwf : WFQ s hd mid tl) (hhi : k ≤ tl.2.val)
    (hk : ∀ c ∈ mid ++ [tl], c.2.val ≠ k) (hfuel : mid.length + 2 ≤ fuel) :
    parse_delete fuel s k = some (0, s) := by
  obtain ⟨n, rfl⟩ : ∃ n, fuel = n + 1 := ⟨fuel - 1, by omega⟩
  have hq := WFQ_iff_QList.mp hwf
  obtain ⟨l0, P, c, l2, e, _, hc, hw, hcm, _⟩ := anchor (k := k) (f := n + 1) hq
    ⟨tl, by simp, by omega⟩ (by simp; omega)
  have hq' : QList s (l0 ++ P :: c :: l2) := e ▸ hq
  have hl := seg_load hq'.1 (c := c) (by simp)
  have hhd := seg_load hq.1 (c := hd) (by simp)
  rw [← hq.1.1] at hhd
  exact parse_delete_of_body (delete_body_absent hhd hw hl (hk c hcm))

/-- A key strictly between the sentinel keys and absent from the set: `parse_insert` returns 1
and links one node carrying the key; the result is again a well-formed quiescent set. -/
theorem insert_WFQ_absent {s : State} {hd tl : Cell} {mid : List Cell} {a k : Int}
    {f : Nat} (hwf : WFQ s hd mid tl) (hlo : hd.2.val < k) (hhi : k < tl.2.val)
    (hk : k ∉ keys mid) (ha : Fresh s a) (hfuel : mid.length + 2 ≤ f) :
    ∃ t hd1 mid1 A B, parse_insert f s a k = some (1, t) ∧ WFQ t hd1 mid1 tl ∧
      hd1.1 = hd.1 ∧ hd1.2.val = hd.2.val ∧ keys mid = A ++ B ∧ keys mid1 = A ++ k :: B ∧
      (∀ p, p ≠ a → (t.mem p = none ↔ s.mem p = none)) ∧ t.mem a ≠ none := by
  obtain ⟨n, rfl⟩ : ∃ n, f = n + 1 := ⟨f - 1, by omega⟩
  have hq := WFQ_iff_QList.mp hwf
  obtain ⟨l0, P, c, l2, e, hP, hc, hw, hcm, _⟩ := anchor (k := k) (f := n + 1) hq
    ⟨tl, by simp, by omega⟩ (by simp; omega)
  have hq' : QList s (l0 ++ P :: c :: l2) := e ▸ hq
  obtain ⟨_, _, hPc, hlP, hlc, hPl, _, _, _⟩ := QList_adjacent hq'
  have hhd := seg_load hq.1 (c := hd) (by simp)
  rw [← hq.1.1] at hhd
  have hPk : P.2.val < k := by
    rcases hP P (by simp) with h | h
    · rw [h]; exact hlo
    · exact h
  have hck : c.2.val ≠ k := by
    rcases List.mem_append.mp hcm with h | h
    · intro he
      exact hk (List.mem_map.mpr ⟨c, h, he⟩)
    · simp only [List.mem_singleton] at h
      rw [h]; omega
  have haP : a ≠ P.1 := by
    intro h
    have := ha.2.2
    rw [h, (load_eq_some hlP).2] at this
    cases this
  have hbody := insert_body_absent (a := a) hhd hw hlP hlc (hq'.2.2.1 P (by simp)).2.2 hPc hPl
    hck haP
  have hpost := insert_QList hq' ha hPk (by omega)
  have e' : hd :: mid ++ [tl] = l0 ++ P :: ([] ++ c :: l2) := by simpa using e
  obtain ⟨hd1, mid1, A, B, e1, h1, h2, h3, h4⟩ :=
    retriple e' (P.1, ⟨P.2.val, a, false⟩) [(a, ⟨k, c.1, false⟩)] rfl rfl
  obtain ⟨m1, m2, m3, _⟩ := insert_post_mem (s := s) (P := P) (a := a) (k := k) (c := c.1) haP
  refine ⟨_, hd1, mid1, A, B, parse_insert_of_body hbody, ?_, h1, h2, by simpa [keys] using h3,
    by simpa [keys] using h4, ?_, by simp [m2]⟩
  · apply WFQ_iff_QList.mpr
    rw [← e1]
    simpa using hpost
  · intro p hp
    by_cases hpP : p = P.1
    · rw [hpP, m1, (load_eq_some hlP).2]
      simp
    · rw [m3 p hpP hp]

/-- A key held by the set: `parse_delete` returns 1 and unlinks the node carrying the key; the
result is again a well-formed quiescent set. -/
theorem delete_WFQ_present {s : State} {hd tl : Cell} {mid : List Cell} {k : Int}
    {fuel : Nat} (hwf : WFQ s hd mid tl) (hk : k ∈ keys mid) (hfuel : mid.length + 2 ≤ fuel) :
    ∃ t hd1 mid1 A B, parse_delete fuel s k = some (1, t) ∧ WFQ t hd1 mid1 tl ∧
      hd1.1 = hd.1 ∧ hd1.2.val = hd.2.val ∧ keys mid = A ++ k :: B ∧ keys mid1 = A ++ B ∧
      (∀ p, t.mem p = none ↔ s.mem p = none) := by
  obtain ⟨n, rfl⟩ : ∃ n, fuel = n + 1 := ⟨fuel - 1, by omega⟩
  have hq := WFQ_iff_QList.mp hwf
  obtain ⟨x, hx, hxk⟩ := List.mem_map.mp hk
  have hxk' : x.2.val = k := hxk
  have hkhi := (keys_between hwf k hk).2
  obtain ⟨l0, P, c, l2, e, hP, hc, hw, hcm, hmin⟩ := anchor (k := k) (f := n + 1) hq
    ⟨x, by simp [hx], by omega⟩ (by simp; omega)
  have hcx := hmin x (by simp [hx]) (by omega)
  have hck : c.2.val = k := by omega
  obtain ⟨nx, l3, rfl⟩ : ∃ nx l3, l2 = nx :: l3 := by
    cases l2 with
    | nil =>
      exfalso
      have e' : (hd :: mid) ++ [tl] = (l0 ++ [P]) ++ [c] := by simpa using e
      have := (List.append_inj' e' rfl).2
      simp only [List.cons.injEq, and_true] at this
      rw [this] at hkhi
      omega
    | cons nx l3 => exact ⟨nx, l3, rfl⟩
  have hq' : QList s (l0 ++ P :: c :: nx :: l3) := e ▸ hq
  obtain ⟨_, _, hPc, hlP, hlc, hPl, hcl, _, hne⟩ := QList_adjacent hq'
  have hq2 : QList s ((l0 ++ [P]) ++ c :: nx :: l3) := by simpa using hq'
  obtain ⟨_, _, hcn, _, _, _, _, _, _⟩ := QList_adjacent hq2
  have hhd := seg_load hq.1 (c := hd) (by simp)
  rw [← hq.1.1] at hhd
  have hcv := hq'.2.2.1 c (by simp)
  have hcu : get_unmarked_ref c.2.next = nx.1 := by
    rw [get_unmarked_ref, unset_mark_validRef hcv.2.1, hcn]
  have hbody := delete_body_present hhd hw hlP hlc (hq'.2.2.1 P (by simp)).2.2 hPc hPl
    hcv.2.2 hcn hcu hcl hck hne
  have hpost := delete_QList hq'
  have e' : hd :: mid ++ [tl] = l0 ++ P :: ([c] ++ nx :: l3) := by simpa using e
  obtain ⟨hd1, mid1, A, B, e1, h1, h2, h3, h4⟩ :=
    retriple e' (P.1, ⟨P.2.val, nx.1, false⟩) [] rfl rfl
  obtain ⟨m1, m2, m3, _⟩ := delete_post_mem (s := s) (P := P) (c := c) (q := nx.1) hne
  refine ⟨_, hd1, mid1, A, B, parse_delete_of_body hbody, ?_, h1, h2,
    by simpa [keys, hck] using h3, by simpa [keys] using h4, ?_⟩
  · apply WFQ_iff_QList.mpr
    rw [← e1]
    simpa using hpost
  · intro p
    by_cases hpP : p = P.1
    · rw [hpP, m1, (load_eq_some hlP).2]
      simp
    · by_cases hpc : p = c.1
      · rw [hpc, m2, (load_eq_some hlc).2]
        simp
      · rw [m3 p hpP hpc]

/-! ## Concrete states are well formed -/

theorem emptySet_WFQ : WFQ emptySet emptyHd [] emptyTl := by
  refine ⟨⟨by decide, rfl, by decide, by simp [increasing, emptyHd, emptyTl, VAL_MIN, VAL_MAX]⟩,
    by decide, ?_⟩
  intro p n h
  simp only [emptySet] at h
  split_ifs at h <;> cases h <;> rfl

theorem fiveSet_WFQ : WFQ fiveSet fiveHd fiveMid emptyTl := by
  refine ⟨⟨by decide, rfl, by decide,
    by simp [increasing, fiveHd, fiveMid, emptyTl, VAL_MIN, VAL_MAX]⟩, by decide, ?_⟩
  intro p n h
  simp only [fiveSet] at h
  split_ifs at h <;> cases h <;> rfl

theorem emptySet_fresh : Fresh emptySet 48 := by
  refine ⟨by decide, by decide, ?_⟩
  simp [emptySet]

/-! ## Sequential contracts -/

theorem keys_length (mid : List Cell) : (keys mid).length = mid.length := by
  simp [keys]

/-- C2: on a well-formed quiescent set with key set `keys mid`, for a key strictly between the
sentinel keys and a fresh node from the allocator, `parse_insert` returns 1 if and only if the
key is not in the set, and in the resulting state `parse_find` returns 1 exactly for the keys of
the old set together with the inserted key. -/
theorem parse_insert_sequential (s : State) (hd : Cell) (mid : List Cell) (tl : Cell)
    (a k : Int) (fuel : Nat) (hwf : WFQ s hd mid tl) (hlo : hd.2.val < k)
    (hhi : k < tl.2.val) (ha : Fresh s a) (hfuel : mid.length + 2 ≤ fuel) :
    ∃ t, parse_insert fuel s a k = some (if k ∈ keys mid then 0 else 1, t) ∧
      ∀ j f, hd.2.val < j → j < tl.2.val → mid.length + 3 ≤ f →
        parse_find f t j = some (if j ∈ keys mid ∨ j = k then 1 else 0, t) := by
  by_cases hk : k ∈ keys mid
  · obtain ⟨c, hc, hck⟩ := List.mem_map.mp hk
    refine ⟨s, ?_, ?_⟩
    · rw [if_pos hk]
      exact insert_WFQ_present hwf ⟨c, by simp [hc], hck⟩ hfuel
    · intro j f h1 h2 h3
      rw [find_WFQ hwf h1 h2 (by omega)]
      have : (j ∈ keys mid ∨ j = k) ↔ j ∈ keys mid := by
        constructor
        · rintro (h | rfl)
          · exact h
          · exact hk
        · exact Or.inl
      simp only [this]
  · obtain ⟨t, hd1, mid1, A, B, h1, h2, _, h4, h5, h6, _, _⟩ :=
      insert_WFQ_absent hwf hlo hhi hk ha hfuel
    refine ⟨t, ?_, ?_⟩
    · rw [if_neg hk]; exact h1
    · intro j f hj1 hj2 hf
      have hlen : mid1.length = mid.length + 1 := by
        rw [← keys_length mid1, ← keys_length mid, h5, h6]
        simp
        omega
      rw [find_WFQ h2 (by omega) hj2 (by omega)]
      have : j ∈ keys mid1 ↔ (j ∈ keys mid ∨ j = k) := by
        rw [h5, h6]
        simp only [List.mem_append, List.mem_cons]
        tauto
      simp only [this]

theorem parse_insert_sequential_witness :
    WFQ emptySet emptyHd [] emptyTl ∧ emptyHd.2.val < 7 ∧ 7 < emptyTl.2.val ∧
      Fresh emptySet 48 ∧
      ∃ t, parse_insert 2 emptySet 48 7 = some (if 7 ∈ keys [] then 0 else 1, t) ∧
        ∀ j f, emptyHd.2.val < j → j < emptyTl.2.val → ([] : List Cell).length + 3 ≤ f →
          parse_find f t j = some (if j ∈ keys [] ∨ j = 7 then 1 else 0, t) :=
  ⟨emptySet_WFQ, by decide, by decide, emptySet_fresh,
    parse_insert_sequential emptySet emptyHd [] emptyTl 48 7 2 emptySet_WFQ (by decide)
      (by decide) emptySet_fresh (by decide)⟩

/-- C3: on a well-formed quiescent set with key set `keys mid`, for a key strictly between the
sentinel keys, `parse_delete` returns 1 if and only if the key is in the set, and in the
resulting state `parse_find` returns 1 exactly for the keys of the old set other than the
removed key. -/
theorem parse_delete_sequential (s : State) (hd : Cell) (mid : List Cell) (tl : Cell)
    (k : Int) (fuel : Nat) (hwf : WFQ s hd mid tl) (_hlo : hd.2.val < k)
    (hhi : k < tl.2.val) (hfuel : mid.length + 2 ≤ fuel) :
    ∃ t, parse_delete fuel s k = some (if k ∈ keys mid then 1 else 0, t) ∧
      ∀ j f, hd.2.val < j → j < tl.2.val → mid.length + 2 ≤ f →
        parse_find f t j = some (if j ∈ keys mid ∧ j ≠ k then 1 else 0, t) := by
  by_cases hk : k ∈ keys mid
  · obtain ⟨t, hd1, mid1, A, B, h1, h2, _, h4, h5, h6, _⟩ := delete_WFQ_present hwf hk hfuel
    refine ⟨t, ?_, ?_⟩
    · rw [if_pos hk]; exact h1
    · intro j f hj1 hj2 hf
      have hlen : mid1.length + 1 = mid.length := by
        rw [← keys_length mid1, ← keys_length mid, h5, h6]
        simp
        omega
      rw [find_WFQ h2 (by omega) hj2 (by omega)]
      have hnd := keys_nodup hwf
      rw [h5] at hnd
      have hkA : k ∉ A ∧ k ∉ B := by
        have := List.nodup_middle.mp hnd
        have h' := (List.nodup_cons.mp this).1
        simpa using h'
      have : j ∈ keys mid1 ↔ (j ∈ keys mid ∧ j ≠ k) := by
        rw [h5, h6]
        simp only [List.mem_append, List.mem_cons]
        constructor
        · rintro (h | h)
          · exact ⟨Or.inl h, fun e => hkA.1 (e ▸ h)⟩
          · exact ⟨Or.inr (Or.inr h), fun e => hkA.2 (e ▸ h)⟩
        · rintro ⟨h | h | h, hne⟩
          · exact Or.inl h
          · exact absurd h hne
          · exact Or.inr h
      simp only [this]
  · refine ⟨s, ?_, ?_⟩
    · rw [if_neg hk]
      refine delete_WFQ_absent hwf (by omega) ?_ hfuel
      intro c hc he
      rcases List.mem_append.mp hc with h | h
      · exact hk (List.mem_map.mpr ⟨c, h, he⟩)
      · simp only [List.mem_singleton] at h
        rw [h] at he
        omega
    · intro j f h1 h2 h3
      rw [find_WFQ hwf h1 h2 h3]
      have : (j ∈ keys mid ∧ j ≠ k) ↔ j ∈ keys mid := by
        constructor
        · exact fun h => h.1
        · exact fun h => ⟨h, fun e => hk (e ▸ h)⟩
      simp only [this]

theorem parse_delete_sequential_witness :
    WFQ fiveSet fiveHd fiveMid emptyTl ∧ fiveHd.2.val < 5 ∧ 5 < emptyTl.2.val ∧
      ∃ t, parse_delete 3 fiveSet 5 = some (if 5 ∈ keys fiveMid then 1 else 0, t) ∧
        ∀ j f, fiveHd.2.val < j → j < emptyTl.2.val → fiveMid.length + 2 ≤ f →
          parse_find f t j = some (if j ∈ keys fiveMid ∧ j ≠ 5 then 1 else 0, t) :=
  ⟨fiveSet_WFQ, by decide, by decide,
    parse_delete_sequential fiveSet fiveHd fiveMid emptyTl 5 3 fiveSet_WFQ (by decide)
      (by decide) (by decide)⟩

/-- C8: on a well-formed quiescent set that does not hold `k` (strictly between the sentinel
keys), the calls `parse_insert(set, k)`, `parse_find(set, k)`, `parse_insert(set, k)` run one
after the other return 1, 1, 0, and the second `parse_insert` leaves the state produced by the
first one unchanged. -/
theorem insert_find_insert (s : State) (hd : Cell) (mid : List Cell) (tl : Cell)
    (a a2 k : Int) (fuel : Nat) (hwf : WFQ s hd mid tl) (hlo : hd.2.val < k)
    (hhi : k < tl.2.val) (hk : k ∉ keys mid) (ha : Fresh s a)
    (hfuel : mid.length + 3 ≤ fuel) :
    ∃ t, parse_insert fuel s a k = some (1, t) ∧ parse_find fuel t k = some (1, t) ∧
      parse_insert fuel t a2 k = some (0, t) := by
  obtain ⟨t, hd1, mid1, A, B, h1, h2, _, h4, h5, h6, _, _⟩ :=
    insert_WFQ_absent (f := fuel) hwf hlo hhi hk ha (by omega)
  have hlen : mid1.length = mid.length + 1 := by
    rw [← keys_length mid1, ← keys_length mid, h5, h6]
    simp
    omega
  have hk1 : k ∈ keys mid1 := by rw [h6]; simp
  have hf : mid1.length + 2 ≤ fuel := by omega
  have hl1 : hd1.2.val < k := by omega
  refine ⟨t, h1, ?_, ?_⟩
  · rw [find_WFQ h2 hl1 hhi hf, if_pos hk1]
  · obtain ⟨c, hc, hck⟩ := List.mem_map.mp hk1
    exact insert_WFQ_present h2 ⟨c, by simp [hc], hck⟩ (by omega)

theorem insert_find_insert_witness :
    WFQ emptySet emptyHd [] emptyTl ∧ emptyHd.2.val < 7 ∧ 7 < emptyTl.2.val ∧
      7 ∉ keys [] ∧ Fresh emptySet 48 ∧
      ∃ t, parse_insert 3 emptySet 48 7 = some (1, t) ∧ parse_find 3 t 7 = some (1, t) ∧
        parse_insert 3 t 64 7 = some (0, t) :=
  ⟨emptySet_WFQ, by decide, by decide, by decide, emptySet_fresh,
    insert_find_insert emptySet emptyHd [] emptyTl 48 64 7 3 emptySet_WFQ (by decide)
      (by decide) (by decide) emptySet_fresh (by decide)⟩

/-- C9: on a well-formed quiescent set that holds `k` (strictly between the sentinel keys), the
calls `parse_delete(set, k)`, `parse_find(set, k)`, `parse_delete(set, k)` run one after the
other return 1, 0, 0, and the second `parse_delete` leaves the state produced by the first one
unchanged. -/
theorem delete_find_delete (s : State) (hd : Cell) (mid : List Cell) (tl : Cell)
    (k : Int) (fuel : Nat) (hwf : WFQ s hd mid tl) (_hlo : hd.2.val < k)
    (_hhi : k < tl.2.val) (hk : k ∈ keys mid) (hfuel : mid.length + 2 ≤ fuel) :
    ∃ t, parse_delete fuel s k = some (1, t) ∧ parse_find fuel t k = some (0, t) ∧
      parse_delete fuel t k = some (0, t) := by
  obtain ⟨t, hd1, mid1, A, B, h1, h2, _, h4, h5, h6, _⟩ := delete_WFQ_present hwf hk hfuel
  have hlen : mid1.length + 1 = mid.length := by
    rw [← keys_length mid1, ← keys_length mid, h5, h6]
    simp
    omega
  have hnd := keys_nodup hwf
  rw [h5] at hnd
  have hk1 : k ∉ keys mid1 := by
    have := List.nodup_middle.mp hnd
    have h' := (List.nodup_cons.mp this).1
    rw [h6]
    exact h'
  have hkb := keys_between hwf k hk
  have hf : mid1.length + 2 ≤ fuel := by omega
  have hl1 : hd1.2.val < k := by omega
  refine ⟨t, h1, ?_, ?_⟩
  · rw [find_WFQ h2 hl1 hkb.2 hf, if_neg hk1]
  · refine delete_WFQ_absent h2 (by omega) ?_ hf
    intro c hc he
    rcases List.mem_append.mp hc with h | h
    · exact hk1 (List.mem_map.mpr ⟨c, h, he⟩)
    · simp only [List.mem_singleton] at h
      rw [h] at he
      omega

theorem delete_find_delete_witness :
    WFQ fiveSet fiveHd fiveMid emptyTl ∧ fiveHd.2.val < 5 ∧ 5 < emptyTl.2.val ∧
      5 ∈ keys fiveMid ∧
      ∃ t, parse_delete 3 fiveSet 5 = some (1, t) ∧ parse_find 3 t 5 = some (0, t) ∧
        parse_delete 3 t 5 = some (0, t) :=
  ⟨fiveSet_WFQ, by decide, by decide, by decide,
    delete_find_delete fiveSet fiveHd fiveMid emptyTl 5 3 fiveSet_WFQ (by decide)
      (by decide) (by decide) (by decide)⟩

/-! ## Boundary keys -/

/-- C6, as the code behaves: on every well-formed quiescent set `parse_find` returns 1, not 0,
for the head sentinel's key and for the tail sentinel's key, and leaves the state as it was. -/
theorem parse_find_reports_sentinels (s : State) (hd : Cell) (mid : List Cell) (tl : Cell)
    (fuel : Nat) (hwf : WFQ s hd mid tl) (hfuel : mid.length + 2 ≤ fuel) :
    parse_find fuel s hd.2.val = some (1, s) ∧ parse_find fuel s tl.2.val = some (1, s) := by
  have hinc := hwf.1.2.2.2
  have hlt : hd.2.val < tl.2.val := (increasing_cons.mp hinc).1 tl (by simp)
  constructor
  · obtain ⟨r, h1, _, h3⟩ := parse_find_chain (k := hd.2.val) (f := fuel) hwf.1.1 hinc
      ⟨tl, by simp, by omega⟩ (by simp; omega)
    rw [h1, h3.mpr ⟨hd, by simp, rfl, (hwf.2.1 hd (by simp)).2.2⟩]
  · obtain ⟨r, h1, _, h3⟩ := parse_find_chain (k := tl.2.val) (f := fuel) hwf.1.1 hinc
      ⟨tl, by simp, by omega⟩ (by simp; omega)
    rw [h1, h3.mpr ⟨tl, by simp, rfl, (hwf.2.1 tl (by simp)).2.2⟩]

theorem parse_find_reports_sentinels_witness :
    WFQ emptySet emptyHd [] emptyTl ∧
      parse_find 2 emptySet emptyHd.2.val = some (1, emptySet) ∧
      parse_find 2 emptySet emptyTl.2.val = some (1, emptySet) :=
  ⟨emptySet_WFQ,
    parse_find_reports_sentinels emptySet emptyHd [] emptyTl 2 emptySet_WFQ (by decide)⟩

/-- C6 fails as stated: on the empty set, which is well formed and quiescent, `parse_find`
returns 1 for the key of the head sentinel and 1 for the key of the tail sentinel. -/
theorem parse_find_sentinel_counterexample :
    WFQ emptySet emptyHd [] emptyTl ∧
      (parse_find 2 emptySet VAL_MIN).map Prod.fst = some 1 ∧
      (parse_find 2 emptySet VAL_MAX).map Prod.fst = some 1 ∧
      (parse_find 2 emptySet VAL_MIN).map Prod.fst ≠ some 0 ∧
      (parse_find 2 emptySet VAL_MAX).map Prod.fst ≠ some 0 :=
  ⟨emptySet_WFQ, by decide, by decide, by decide, by decide⟩

/-- C5 fails as stated. On the empty set `parse_delete` with the tail sentinel's key returns 1
and unlinks the tail sentinel: afterwards `head->next` is `NULL`, the tail sentinel carries a
marked successor slot, and no strictly increasing chain between two sentinels starts at
`set->head`. On the same set `parse_insert` with the head sentinel's key returns 1 and links a
second node carrying the head sentinel's key, so the chain is no longer strictly increasing. -/
theorem boundary_counterexample :
    WFQ emptySet emptyHd [] emptyTl ∧
      (∃ t, parse_delete 2 emptySet VAL_MAX = some (1, t) ∧
        t.mem 16 = some ⟨VAL_MIN, 0, false⟩ ∧ t.mem 32 = some ⟨VAL_MAX, 1, false⟩ ∧
        ¬ ∃ hd1 mid1 tl1, SortedChain t hd1 mid1 tl1) ∧
      (∃ t, parse_insert 2 emptySet 48 VAL_MIN = some (1, t) ∧
        t.mem 16 = some ⟨VAL_MIN, 48, false⟩ ∧ t.mem 48 = some ⟨VAL_MIN, 32, false⟩ ∧
        ¬ ∃ hd1 mid1 tl1, SortedChain t hd1 mid1 tl1) := by
  refine ⟨emptySet_WFQ, ⟨delete_post emptySet emptyHd emptyTl 0, ?_, ?_, ?_, ?_⟩,
    ⟨insert_post emptySet emptyHd 48 VAL_MIN 32, ?_, ?_, ?_, ?_⟩⟩
  · exact parse_delete_of_body (delete_body_present (d := emptyHd.2) (P := emptyHd)
      (c := emptyTl) (by decide) (by decide) (by decide) (by decide) (by decide) (by decide)
      (by decide) (by decide) (by decide) (by decide) (by decide) (by decide) (by decide))
  · decide
  · decide
  · rintro ⟨hd1, mid1, tl1, ⟨h1, _, h4, hrest⟩, _, _, _⟩
    have h4' : some ({ val := VAL_MIN, next := 0, lock := false } : node_l) = some hd1.2 := by
      rw [← h4]; decide
    have e2 : hd1.2.next = 0 := by rw [← Option.some.inj h4']
    rw [e2] at hrest
    cases mid1 with
    | nil => exact hrest.2.1 (by decide)
    | cons x xs => exact hrest.2.1 (by decide)
  · exact parse_insert_of_body (insert_body_absent (d := emptyHd.2) (P := emptyHd)
      (c := emptyTl) (by decide) (by decide) (by decide) (by decide) (by decide) (by decide)
      (by decide) (by decide) (by decide))
  · decide
  · decide
  · rintro ⟨hd1, mid1, tl1, ⟨h1, _, h4, hrest⟩, _, _, hinc⟩
    have h4' : some ({ val := VAL_MIN, next := 48, lock := false } : node_l) = some hd1.2 := by
      rw [← h4]; decide
    have e2 : hd1.2 = ⟨VAL_MIN, 48, false⟩ := (Option.some.inj h4').symm
    rw [e2] at hrest
    have hu : get_unmarked_ref 48 = 48 := by decide
    simp only [hu] at hrest
    have hlt := (increasing_cons.mp hinc).1
    cases mid1 with
    | nil =>
      obtain ⟨g1, _, g3, _⟩ := hrest
      have g3' : some ({ val := VAL_MIN, next := 32, lock := false } : node_l) = some tl1.2 := by
        rw [← g3]; decide
      have := hlt tl1 (by simp)
      rw [e2, ← Option.some.inj g3'] at this
      exact absurd this (by decide)
    | cons x xs =>
      obtain ⟨g1, _, g3, _⟩ := hrest
      have g3' : some ({ val := VAL_MIN, next := 32, lock := false } : node_l) = some x.2 := by
        rw [← g3]; decide
      have := hlt x (by simp)
      rw [e2, ← Option.some.inj g3'] at this
      exact absurd this (by decide)

/-! ## Sequences of calls -/

theorem allocs_cons (op : Op) (ops : List Op) : allocs (op :: ops) = allocs [op] ++ allocs ops := by
  cases op <;> simp [allocs]

theorem inserted_cons (x : Op × Int) (rs : List (Op × Int)) :
    inserted (x :: rs) = inserted [x] + inserted rs := by
  obtain ⟨op, r⟩ := x
  cases op <;> simp [inserted]

theorem deleted_cons (x : Op × Int) (rs : List (Op × Int)) :
    deleted (x :: rs) = deleted [x] + deleted rs := by
  obtain ⟨op, r⟩ := x
  cases op <;> simp [deleted]

/-- One call on a well-formed quiescent set returns, leaves a well-formed quiescent set with the
same sentinels, and changes the number of nodes between the sentinels by its outcome. -/
theorem step_WFQ {s : State} {hd tl : Cell} {mid : List Cell} {o : Op} {f : Nat}
    (hwf : WFQ s hd mid tl) (hlo : hd.2.val < o.key) (hhi : o.key < tl.2.val)
    (ha : ∀ a ∈ allocs [o], Fresh s a) (hfuel : mid.length + 2 ≤ f) :
    ∃ r t hd1 mid1, step f s o = some (r, t) ∧ WFQ t hd1 mid1 tl ∧ hd1.1 = hd.1 ∧
      hd1.2.val = hd.2.val ∧
      (mid1.length : Int) = mid.length + inserted [(o, r)] - deleted [(o, r)] ∧
      (∀ p, p ∉ allocs [o] → (t.mem p = none ↔ s.mem p = none)) := by
  cases o with
  | insert a k =>
    by_cases hk : k ∈ keys mid
    · obtain ⟨c, hc, hck⟩ := List.mem_map.mp hk
      refine ⟨0, s, hd, mid, insert_WFQ_present hwf ⟨c, by simp [hc], hck⟩ hfuel, hwf, rfl, rfl,
        by simp [inserted, deleted], fun _ _ => Iff.rfl⟩
    · obtain ⟨t, hd1, mid1, A, B, h1, h2, h3, h4, h5, h6, h7, _⟩ :=
        insert_WFQ_absent hwf hlo hhi hk (ha a (by simp [allocs])) hfuel
      have hlen : mid1.length = mid.length + 1 := by
        rw [← keys_length mid1, ← keys_length mid, h5, h6]
        simp
        omega
      refine ⟨1, t, hd1, mid1, h1, h2, h3, h4, by simp [inserted, deleted, hlen], ?_⟩
      intro p hp
      exact h7 p (by simpa [allocs] using hp)
  | delete k =>
    by_cases hk : k ∈ keys mid
    · obtain ⟨t, hd1, mid1, A, B, h1, h2, h3, h4, h5, h6, h7⟩ := delete_WFQ_present hwf hk hfuel
      have hlen : mid1.length + 1 = mid.length := by
        rw [← keys_length mid1, ← keys_length mid, h5, h6]
        simp
        omega
      refine ⟨1, t, hd1, mid1, h1, h2, h3, h4, ?_, fun p _ => h7 p⟩
      simp [inserted, deleted]
      omega
    · refine ⟨0, s, hd, mid, ?_, hwf, rfl, rfl, by simp [inserted, deleted],
        fun _ _ => Iff.rfl⟩
      refine delete_WFQ_absent hwf (le_of_lt hhi) ?_ hfuel
      intro c hc he
      rcases List.mem_append.mp hc with h | h
      · exact hk (List.mem_map.mpr ⟨c, h, he⟩)
      · simp only [List.mem_singleton] at h
        rw [h] at he
        simp only [Op.key] at hhi
        omega
  | find k =>
    exact ⟨_, s, hd, mid, find_WFQ hwf hlo hhi hfuel, hwf, rfl, rfl,
      by simp [inserted, deleted], fun _ _ => Iff.rfl⟩

/-- A sequence of calls on a well-formed quiescent set runs to the end, leaves a well-formed
quiescent set with the same sentinels, and the number of nodes between the sentinels follows
the successful insertions and removals. -/
theorem run_WFQ {tl : Cell} (ops : List Op) :
    ∀ {s : State} {hd : Cell} {mid : List Cell} {f : Nat}, WFQ s hd mid tl →
      Admissible s hd.2.val tl.2.val ops → mid.length + 2 + ops.length ≤ f →
      ∃ rs t hd1 mid1, run f s ops = some (rs, t) ∧ WFQ t hd1 mid1 tl ∧ hd1.1 = hd.1 ∧
        hd1.2.val = hd.2.val ∧
        (mid1.length : Int) = mid.length + inserted rs - deleted rs ∧
        rs.map Prod.fst = ops := by
  induction ops with
  | nil =>
    intro s hd mid f hwf _ _
    exact ⟨[], s, hd, mid, rfl, hwf, rfl, rfl, by simp [inserted, deleted], rfl⟩
  | cons op ops ih =>
    intro s hd mid f hwf hadm hfuel
    obtain ⟨hkeys, hnd, hfresh⟩ := hadm
    rw [allocs_cons] at hnd hfresh
    have hk := hkeys op (by simp)
    obtain ⟨r, t, hd1, mid1, h1, h2, h3, h4, h5, h6⟩ :=
      step_WFQ (f := f) hwf hk.1 hk.2 (fun a h => hfresh a (by simp [h]))
        (by simp at hfuel; omega)
    have hlen : mid1.length ≤ mid.length + 1 := by
      have hi : inserted [(op, r)] ≤ 1 := by
        cases op
        · simp only [inserted]
          split_ifs <;> omega
        · simp [inserted]
        · simp [inserted]
      omega
    have hadm1 : Admissible t hd1.2.val tl.2.val ops := by
      refine ⟨?_, (List.nodup_append.mp hnd).2.1, ?_⟩
      · intro o ho
        rw [h4]
        exact hkeys o (by simp [ho])
      · intro a hmem
        have hfa := hfresh a (by simp [hmem])
        have hdis : a ∉ allocs [op] := fun hin =>
          (List.nodup_append.mp hnd).2.2 hin hmem
        exact ⟨hfa.1, hfa.2.1, (h6 a hdis).mpr hfa.2.2⟩
    obtain ⟨rs, u, hd2, mid2, g1, g2, g3, g4, g5, g6⟩ :=
      ih (f := f) h2 hadm1 (by simp at hfuel; omega)
    refine ⟨(op, r) :: rs, u, hd2, mid2, ?_, g2, g3.trans h3, g4.trans h4, ?_, by simp [g6]⟩
    · simp [run, h1, g1]
    · rw [inserted_cons, deleted_cons]
      push_cast
      omega

theorem seg_unique {s : State} {l1 l2 : List Cell} {a : Int} (h1 : seg s a l1 0)
    (h2 : seg s a l2 0) : l1 = l2 := by
  induction l1 generalizing a l2 with
  | nil =>
    cases l2 with
    | nil => rfl
    | cons y ys => exact absurd h1 h2.2.1
  | cons x xs ih =>
    cases l2 with
    | nil => exact absurd h2 h1.2.1
    | cons y ys =>
      obtain ⟨a1, _, a3, a4⟩ := h1
      obtain ⟨b1, _, b3, b4⟩ := h2
      have e2 : x.2 = y.2 := by
        rw [a3] at b3
        exact Option.some.inj b3
      have e : x = y := Prod.ext (a1.symm.trans b1) e2
      subst e
      rw [ih a4 b4]

/-- C4: on a well-formed quiescent set, for a key strictly between the sentinel keys, the state
left by `parse_insert` and the state left by `parse_delete` are again well-formed quiescent
sets with the same head sentinel (same address and key) and the same tail sentinel; the same
holds for the state left by any finite sequence of such calls, in particular from the empty
set. -/
theorem updates_preserve_invariant (s : State) (hd : Cell) (mid : List Cell) (tl : Cell)
    (a k : Int) (ops : List Op) (fuel : Nat) (hwf : WFQ s hd mid tl) (hlo : hd.2.val < k)
    (hhi : k < tl.2.val) (ha : Fresh s a) (hops : Admissible s hd.2.val tl.2.val ops)
    (hfuel : mid.length + 2 + ops.length ≤ fuel) :
    (∃ r t hd1 mid1, parse_insert fuel s a k = some (r, t) ∧ WFQ t hd1 mid1 tl ∧
      hd1.1 = hd.1 ∧ hd1.2.val = hd.2.val) ∧
    (∃ r t hd1 mid1, parse_delete fuel s k = some (r, t) ∧ WFQ t hd1 mid1 tl ∧
      hd1.1 = hd.1 ∧ hd1.2.val = hd.2.val) ∧
    (∃ rs t hd1 mid1, run fuel s ops = some (rs, t) ∧ rs.map Prod.fst = ops ∧
      WFQ t hd1 mid1 tl ∧ hd1.1 = hd.1 ∧ hd1.2.val = hd.2.val) := by
  refine ⟨?_, ?_, ?_⟩
  · obtain ⟨r, t, hd1, mid1, h1, h2, h3, h4, _, _⟩ :=
      step_WFQ (o := Op.insert a k) (f := fuel) hwf hlo hhi
        (fun b hb => by
          have : b = a := by simpa [allocs] using hb
          rw [this]; exact ha)
        (by omega)
    exact ⟨r, t, hd1, mid1, h1, h2, h3, h4⟩
  · obtain ⟨r, t, hd1, mid1, h1, h2, h3, h4, _, _⟩ :=
      step_WFQ (o := Op.delete k) (f := fuel) hwf hlo hhi
        (fun b hb => by simp [allocs] at hb) (by omega)
    exact ⟨r, t, hd1, mid1, h1, h2, h3, h4⟩
  · obtain ⟨rs, t, hd1, mid1, h1, h2, h3, h4, _, h6⟩ := run_WFQ ops hwf hops hfuel
    exact ⟨rs, t, hd1, mid1, h1, h6, h2, h3, h4⟩

/-- C7: on a well-formed quiescent set holding `mid.length` nodes between the sentinels, any
finite sequence of `parse_insert` / `parse_delete` / `parse_find` calls with keys strictly
between the sentinel keys runs to the end, and the number of nodes between the sentinels in the
final state equals the initial number plus the number of insertions that returned 1 minus the
number of removals that returned 1. -/
theorem size_accounting (s : State) (hd : Cell) (mid : List Cell) (tl : Cell)
    (ops : List Op) (fuel : Nat) (hwf : WFQ s hd mid tl)
    (hops : Admissible s hd.2.val tl.2.val ops) (hfuel : mid.length + 2 + ops.length ≤ fuel) :
    ∃ rs t, run fuel s ops = some (rs, t) ∧ rs.map Prod.fst = ops ∧
      (∃ hd1 mid1, WFQ t hd1 mid1 tl) ∧
      ∀ hd2 mid2 tl2, SortedChain t hd2 mid2 tl2 →
        (mid2.length : Int) = mid.length + inserted rs - deleted rs := by
  obtain ⟨rs, t, hd1, mid1, h1, h2, _, _, h5, h6⟩ := run_WFQ ops hwf hops hfuel
  refine ⟨rs, t, h1, h6, ⟨hd1, mid1, h2⟩, ?_⟩
  intro hd2 mid2 tl2 hsc
  have e := seg_unique h2.1.1 hsc.1
  have hl : (hd1 :: mid1 ++ [tl]).length = (hd2 :: mid2 ++ [tl2]).length := by rw [e]
  have hl' : mid1.length = mid2.length := by simpa using hl
  rw [← hl']
  exact h5

theorem sampleOps_admissible :
    Admissible emptySet emptyHd.2.val emptyTl.2.val sampleOps := by
  refine ⟨by decide, by decide, ?_⟩
  intro a ha
  have h : a = 48 ∨ a = 64 ∨ a = 80 := by simpa [sampleOps, allocs] using ha
  rcases h with rfl | rfl | rfl
  · exact ⟨by decide, by decide, by simp [emptySet]⟩
  · exact ⟨by decide, by decide, by simp [emptySet]⟩
  · exact ⟨by decide, by decide, by simp [emptySet]⟩

theorem updates_preserve_invariant_witness :
    WFQ emptySet emptyHd [] emptyTl ∧ emptyHd.2.val < 7 ∧ 7 < emptyTl.2.val ∧
      Fresh emptySet 48 ∧ Admissible emptySet emptyHd.2.val emptyTl.2.val sampleOps ∧
      ((∃ r t hd1 mid1, parse_insert 8 emptySet 48 7 = some (r, t) ∧ WFQ t hd1 mid1 emptyTl ∧
        hd1.1 = emptyHd.1 ∧ hd1.2.val = emptyHd.2.val) ∧
      (∃ r t hd1 mid1, parse_delete 8 emptySet 7 = some (r, t) ∧ WFQ t hd1 mid1 emptyTl ∧
        hd1.1 = emptyHd.1 ∧ hd1.2.val = emptyHd.2.val) ∧
      (∃ rs t hd1 mid1, run 8 emptySet sampleOps = some (rs, t) ∧
        rs.map Prod.fst = sampleOps ∧ WFQ t hd1 mid1 emptyTl ∧ hd1.1 = emptyHd.1 ∧
        hd1.2.val = emptyHd.2.val)) :=
  ⟨emptySet_WFQ, by decide, by decide, emptySet_fresh, sampleOps_admissible,
    updates_preserve_invariant emptySet emptyHd [] emptyTl 48 7 sampleOps 8 emptySet_WFQ
      (by decide) (by decide) emptySet_fresh sampleOps_admissible (by decide)⟩

theorem size_accounting_witness :
    WFQ emptySet emptyHd [] emptyTl ∧
      Admissible emptySet emptyHd.2.val emptyTl.2.val sampleOps ∧
      ∃ rs t, run 8 emptySet sampleOps = some (rs, t) ∧ rs.map Prod.fst = sampleOps ∧
        (∃ hd1 mid1, WFQ t hd1 mid1 emptyTl) ∧
        ∀ hd2 mid2 tl2, SortedChain t hd2 mid2 tl2 →
          (mid2.length : Int) = ([] : List Cell).length + inserted rs - deleted rs :=
  ⟨emptySet_WFQ, sampleOps_admissible,
    size_accounting emptySet emptyHd [] emptyTl sampleOps 8 emptySet_WFQ
      sampleOps_admissible (by decide)⟩

/-! ## Mark and strip, bit by bit -/

theorem bits64_toLong_ofNat {m : Nat} (h : m < 18446744073709551616) :
    bits64 (toLong (Int.ofNat m)) = m := by
  unfold bits64 toLong
  have : (Int.ofNat m) = (m : Int) := rfl
  rw [this]
  omega

theorem bits64_land64 (a b : Int) : bits64 (land64 a b) = Nat.land (bits64 a) (bits64 b) := by
  unfold land64
  apply bits64_toLong_ofNat
  exact lt_of_le_of_lt Nat.and_le_left (bits64_lt a)

theorem longBit_unset_mark (i : Int) (j : Nat) :
    longBit (unset_mark i) j = (longBit i j && decide (1 ≤ j ∧ j ≤ 62)) := by
  unfold longBit unset_mark
  rw [bits64_land64, bits64_mask_strip]
  show (bits64 i &&& 9223372036854775806).testBit j = _
  rw [Nat.testBit_and, testBit_mask_strip]

theorem unset_mark_eq (i : Int) :
    unset_mark i = ((Nat.land (bits64 i) 9223372036854775806 : Nat) : Int) ∧
      Nat.land (bits64 i) 9223372036854775806 ≤ 9223372036854775806 ∧
      Nat.land (bits64 i) 9223372036854775806 % 2 = 0 := by
  have hle : Nat.land (bits64 i) 9223372036854775806 ≤ 9223372036854775806 := Nat.and_le_right
  refine ⟨?_, hle, ?_⟩
  · unfold unset_mark land64
    rw [bits64_mask_strip]
    have : Int.ofNat (Nat.land (bits64 i) 9223372036854775806)
        = ((Nat.land (bits64 i) 9223372036854775806 : Nat) : Int) := rfl
    rw [this]
    unfold toLong
    omega
  · have h0 : (bits64 i &&& 9223372036854775806).testBit 0 = false := by
      rw [Nat.testBit_and, testBit_mask_strip]
      simp
    rw [Nat.testBit_zero] at h0
    have h0' := of_decide_eq_false h0
    show (bits64 i &&& 9223372036854775806) % 2 = 0
    generalize bits64 i &&& 9223372036854775806 = x at h0' ⊢
    omega

theorem longBit_set_mark (i : Int) (j : Nat) :
    longBit (set_mark i) j = (decide (j = 0) || (longBit i j && decide (1 ≤ j ∧ j ≤ 62))) := by
  obtain ⟨h1, h2, h3⟩ := unset_mark_eq i
  have hm : bits64 (unset_mark i) = Nat.land (bits64 i) 9223372036854775806 := by
    unfold unset_mark
    rw [bits64_land64, bits64_mask_strip]
  have hb : bits64 (set_mark i) = Nat.land (bits64 i) 9223372036854775806 + 1 := by
    unfold set_mark
    rw [h1]
    have : ((Nat.land (bits64 i) 9223372036854775806 : Nat) : Int) + 1
        = Int.ofNat (Nat.land (bits64 i) 9223372036854775806 + 1) := by simp
    rw [this, bits64_toLong_ofNat]
    omega
  have hu := longBit_unset_mark i j
  unfold longBit at hu ⊢
  rw [hm] at hu
  rw [hb, testBit_succ_even h3, hu]

/-- C10, as the code behaves: for every `long` value `i`, `unset_mark(i)` is `i` with bit 0 and
bit 63 cleared and bits 1 to 62 unchanged, and `set_mark(i)` is `i` with bit 0 set, bit 63
cleared and bits 1 to 62 unchanged; `get_unmarked_ref` and `get_marked_ref` are the same
functions on the pointer's integer value. In particular on every value with bit 63 clear the
only bit that changes is bit 0. -/
theorem mark_strip_bits (i : Int) (j : Nat) :
    longBit (unset_mark i) j = (decide (j ≠ 0 ∧ j ≠ 63) && longBit i j) ∧
      longBit (set_mark i) j = (decide (j = 0) || (decide (j ≠ 63) && longBit i j)) ∧
      get_unmarked_ref i = unset_mark i ∧ get_marked_ref i = set_mark i ∧
      (longBit i 63 = false →
        longBit (unset_mark i) j = (decide (j ≠ 0) && longBit i j) ∧
        longBit (set_mark i) j = (decide (j = 0) || longBit i j)) := by
  have hhigh : 64 ≤ j → longBit i j = false := by
    intro hj
    unfold longBit
    apply Nat.testBit_lt_two_pow
    exact lt_of_lt_of_le (bits64_lt i) (by
      have := Nat.pow_le_pow_right (n := 2) (by norm_num) hj
      simpa using this)
  have h1 : longBit (unset_mark i) j = (decide (j ≠ 0 ∧ j ≠ 63) && longBit i j) := by
    rw [longBit_unset_mark]
    by_cases h : 64 ≤ j
    · simp [hhigh h]
    · cases hb : longBit i j
      · simp
      · have : (1 ≤ j ∧ j ≤ 62) ↔ (j ≠ 0 ∧ j ≠ 63) := by omega
        simp [this]
  have h2 : longBit (set_mark i) j = (decide (j = 0) || (decide (j ≠ 63) && longBit i j)) := by
    rw [longBit_set_mark]
    by_cases h : 64 ≤ j
    · simp [hhigh h]
    · cases hb : longBit i j
      · simp
      · by_cases h0 : j = 0
        · simp [h0]
        · have : (1 ≤ j ∧ j ≤ 62) ↔ j ≠ 63 := by omega
          simp [this, h0]
  refine ⟨h1, h2, rfl, rfl, ?_⟩
  intro h63
  rw [h1, h2]
  by_cases hj : j = 63
  · subst hj
    simp [h63]
  · simp [hj]

theorem mark_strip_bits_witness :
    longBit 32 63 = false ∧
      longBit (unset_mark 32) 5 = (decide (5 ≠ 0) && longBit 32 5) ∧
      longBit (set_mark 32) 5 = (decide (5 = 0) || longBit 32 5) :=
  ⟨by decide, (mark_strip_bits 32 5).2.2.2.2 (by decide)⟩

/-- C10 fails as stated: `-2` has bit 63 set, and both `unset_mark(-2)` and `set_mark(-2)` have
bit 63 clear, so a bit other than bit 0 has changed. -/
theorem mark_strip_counterexample :
    LONG_MIN ≤ -2 ∧ -2 ≤ LONG_MAX ∧ longBit (-2) 63 = true ∧
      longBit (unset_mark (-2)) 63 = false ∧ longBit (set_mark (-2)) 63 = false ∧
      unset_mark (-2) = 9223372036854775806 ∧ set_mark (-2) = 9223372036854775807 := by
  decide

/-! ## The marked-reference utilities agree -/

theorem validRef_unset_mark (i : Int) : validRef (unset_mark i) := by
  obtain ⟨h1, h2, h3⟩ := unset_mark_eq i
  rw [h1]
  generalize Nat.land (bits64 i) 9223372036854775806 = m at h2 h3
  refine ⟨by omega, ?_, by omega⟩
  unfold LONG_MAX
  omega

/-- C11: for every `long` value `i`, `is_marked_ref(set_mark(i))` is non-zero,
`is_marked_ref(unset_mark(i))` is 0, `set_mark` and `unset_mark` are idempotent,
`unset_mark(set_mark(i)) = unset_mark(i)`, and the `+1` of `set_mark` never overflows: it is
applied to a value whose bit 0 and bit 63 are clear. -/
theorem marked_ref_utilities_agree (i : Int) :
    is_marked_ref (set_mark i) ≠ 0 ∧ is_marked_ref (unset_mark i) = 0 ∧
      set_mark (set_mark i) = set_mark i ∧ unset_mark (unset_mark i) = unset_mark i ∧
      unset_mark (set_mark i) = unset_mark i ∧
      (longBit (unset_mark i) 0 = false ∧ longBit (unset_mark i) 63 = false ∧
        LONG_MIN ≤ unset_mark i + 1 ∧ unset_mark i + 1 ≤ LONG_MAX ∧
        set_mark i = unset_mark i + 1) := by
  have hv := validRef_unset_mark i
  have hs' : toLong (unset_mark i + 1) = unset_mark i + 1 := by
    obtain ⟨h0, h1, h2⟩ := hv
    simp only [LONG_MAX] at h1
    apply toLong_of_range <;> simp only [LONG_MIN, LONG_MAX] <;> omega
  have hs : set_mark i = unset_mark i + 1 := by
    unfold set_mark
    exact hs'
  have hu : unset_mark (unset_mark i + 1) = unset_mark i := unset_mark_succ_validRef hv
  refine ⟨?_, is_marked_ref_validRef hv, ?_, unset_mark_validRef hv, ?_, ?_, ?_, ?_, ?_, hs⟩
  · rw [hs, is_marked_ref_succ_validRef hv]
    decide
  · rw [hs]
    unfold set_mark
    rw [hu]
    exact hs'
  · rw [hs, hu]
  · rw [longBit_unset_mark]; simp
  · rw [longBit_unset_mark]; simp
  · obtain ⟨h0, _, _⟩ := hv
    unfold LONG_MIN
    omega
  · obtain ⟨_, h1, h2⟩ := hv
    unfold LONG_MAX at *
    omega

/-! ## Node addresses -/

theorem validRef_of_bits {n : Int} (hlo : LONG_MIN ≤ n) (hhi : n ≤ LONG_MAX)
    (h0 : longBit n 0 = false) (h63 : longBit n 63 = false) : validRef n := by
  unfold longBit at h0 h63
  rw [Nat.testBit_to_div_mod] at h0 h63
  have g0 := of_decide_eq_false h0
  have g63 := of_decide_eq_false h63
  unfold bits64 at g0 g63
  unfold LONG_MIN at hlo
  unfold LONG_MAX at hhi
  unfold validRef LONG_MAX
  simp only [pow_zero, Nat.div_one] at g0
  norm_num at g63
  omega

/-- C18: for every `long` value `n` with bit 0 and bit 63 clear (an aligned, non-negative node
address, `NULL` included), `unset_mark(set_mark(n)) = n`, `is_marked_ref(n) = 0` and
`set_mark(n) = n + 1`; hence `get_unmarked_ref(get_marked_ref(p)) = p`. -/
theorem mark_then_strip (n : Int) (hlo : LONG_MIN ≤ n) (hhi : n ≤ LONG_MAX)
    (h0 : longBit n 0 = false) (h63 : longBit n 63 = false) :
    unset_mark (set_mark n) = n ∧ is_marked_ref n = 0 ∧ set_mark n = n + 1 ∧
      get_unmarked_ref (get_marked_ref n) = n := by
  have hv := validRef_of_bits hlo hhi h0 h63
  have h1 : unset_mark (set_mark n) = n := by
    rw [set_mark_validRef hv, unset_mark_succ_validRef hv]
  exact ⟨h1, is_marked_ref_validRef hv, set_mark_validRef hv, h1⟩

theorem mark_then_strip_witness :
    LONG_MIN ≤ 48 ∧ 48 ≤ LONG_MAX ∧ longBit 48 0 = false ∧ longBit 48 63 = false ∧
      (unset_mark (set_mark 48) = 48 ∧ is_marked_ref 48 = 0 ∧ set_mark 48 = 48 + 1 ∧
        get_unmarked_ref (get_marked_ref 48) = 48) :=
  ⟨by decide, by decide, by decide, by decide,
    mark_then_strip 48 (by decide) (by decide) (by decide) (by decide)⟩

/-! ## `is_marked_ref` reads the mark bit -/

theorem land_mark_cases (n : Nat) :
    Nat.land n 9223372036854775809 =
      (if n.testBit 0 then 1 else 0) + (if n.testBit 63 then 9223372036854775808 else 0) := by
  have h63 : ∀ j, Nat.testBit 9223372036854775808 j = decide (63 = j) := by
    intro j
    have := @Nat.testBit_two_pow 63 j
    simpa using this
  have h1 : ∀ j, Nat.testBit 1 j = decide (j = 0) := by
    intro j
    cases j with
    | zero => rfl
    | succ k =>
      have : Nat.testBit 1 (k + 1) = false := Nat.testBit_lt_two_pow (Nat.one_lt_two_pow (by omega))
      simp [this]
  apply Nat.eq_of_testBit_eq
  intro j
  show (n &&& 9223372036854775809).testBit j = _
  rw [Nat.testBit_and, testBit_mask_mark]
  cases hb0 : n.testBit 0 <;> cases hb63 : n.testBit 63
  · simp only [Bool.false_eq_true, if_false, Nat.zero_testBit]
    by_cases e0 : j = 0
    · subst e0; simp [hb0]
    · by_cases e63 : j = 63
      · subst e63; simp [hb63]
      · simp [e0, e63]
  · simp only [Bool.false_eq_true, if_false, if_true, Nat.zero_add, h63]
    by_cases e0 : j = 0
    · subst e0; simp [hb0]
    · by_cases e63 : j = 63
      · subst e63; simp [hb63]
      · have : ¬ 63 = j := fun h => e63 h.symm
        simp [e0, e63, this]
  · simp only [Bool.false_eq_true, if_false, if_true, Nat.add_zero, h1]
    by_cases e0 : j = 0
    · subst e0; simp [hb0]
    · by_cases e63 : j = 63
      · subst e63; simp [hb63]
      · simp [e0, e63]
  · simp only [if_true]
    show _ = Nat.testBit 9223372036854775809 j
    rw [testBit_mask_mark]
    by_cases e0 : j = 0
    · subst e0; simp [hb0]
    · by_cases e63 : j = 63
      · subst e63; simp [hb63]
      · simp [e0, e63]

/-- C20: with a 64-bit `long` and a 32-bit `int`, for every `long` value `i`, `is_marked_ref(i)`
is 1 when bit 0 of `i` is set and 0 when it is clear; bit 63, which the mask `LONG_MIN+1` also
keeps, is dropped by the conversion to `int`, so the result is always 0 or 1. -/
theorem is_marked_ref_reads_bit0 (i : Int) :
    is_marked_ref i = (if longBit i 0 then 1 else 0) ∧
      (is_marked_ref i = 0 ∨ is_marked_ref i = 1) ∧
      (longBit (land64 i (toLong (LONG_MIN + 1))) 63 = longBit i 63) := by
  have hm : is_marked_ref i = (if longBit i 0 then 1 else 0) := by
    unfold is_marked_ref land64 longBit
    rw [bits64_mask_mark, land_mark_cases]
    cases (bits64 i).testBit 0 <;> cases (bits64 i).testBit 63 <;> decide
  refine ⟨hm, ?_, ?_⟩
  · rw [hm]
    cases longBit i 0 <;> simp
  · unfold longBit
    rw [bits64_land64, bits64_mask_mark]
    show (bits64 i &&& 9223372036854775809).testBit 63 = _
    rw [Nat.testBit_and, testBit_mask_mark]
    simp

/-! ## No-effect outcomes -/

theorem lastOr_concat (pc : Cell) (l : List Cell) (x : Cell) : lastOr pc (l ++ [x]) = x := by
  induction l generalizing pc with
  | nil => rfl
  | cons y ys ih => exact ih y

/-- The walk stops at the adjacent nodes `P`, `c` when every node before `c`, the head sentinel
apart, has a key below `k` and the key of `c` is not below `k`. -/
theorem walk_at {s : State} {l0 l2 : List Cell} {P c : Cell} {k : Int} {f : Nat}
    (hq : QList s (l0 ++ P :: c :: l2)) (hlt : ∀ x ∈ (l0 ++ [P]).tail, x.2.val < k)
    (hc : ¬ c.2.val < k) (hf : (l0 ++ [P]).length ≤ f) :
    ∃ d, load s s.head = some d ∧
      walk f s s.head (get_unmarked_ref d.next) k = some (P.1, c.1) := by
  obtain ⟨hseg, _, _, _⟩ := hq
  cases l0 with
  | nil =>
    obtain ⟨e1, e2, e3, e4⟩ := hseg
    refine ⟨P.2, by simp [load, e2, e3], ?_⟩
    have hw := walk_spec (k := k) (f := f) [] c l2 P e4 (by simp) hc (by simp at hf; simpa using hf)
    rw [e1]
    exact hw
  | cons h l0' =>
    obtain ⟨e1, e2, e3, e4⟩ := hseg
    refine ⟨h.2, by simp [load, e2, e3], ?_⟩
    have e4' : seg s (get_unmarked_ref h.2.next) ((l0' ++ [P]) ++ c :: l2) 0 := by
      simpa using e4
    have hw := walk_spec (k := k) (f := f) (l0' ++ [P]) c l2 h e4' (by simpa using hlt) hc
      (by simp at hf ⊢; omega)
    rw [lastOr_concat] at hw
    rw [e1]
    exact hw

/-- Removal of the node `c` that sits between `P` and `n` in a quiescent chain. -/
theorem delete_at {s : State} {l0 l2 : List Cell} {P c n : Cell} {f : Nat}
    (hq : QList s (l0 ++ P :: c :: n :: l2)) (hf : (l0 ++ [P]).length + 1 ≤ f) :
    parse_delete f s c.2.val = some (1, delete_post s P c n.1) := by
  obtain ⟨m, rfl⟩ : ∃ m, f = m + 1 := ⟨f - 1, by omega⟩
  have hinc := hq.2.1
  have hinc' := increasing_append.mp hinc
  have hlt : ∀ x ∈ (l0 ++ [P]).tail, x.2.val < c.2.val := by
    intro x hx
    have hx' : x ∈ l0 ++ [P] := List.mem_of_mem_tail hx
    rcases List.mem_append.mp hx' with h | h
    · exact hinc'.2.2 x h c (by simp)
    · simp only [List.mem_singleton] at h
      rw [h]
      exact (increasing_cons.mp hinc'.2.1).1 c (by simp)
  obtain ⟨d, hd, hw⟩ := walk_at (k := c.2.val) (f := m + 1) hq hlt (lt_irrefl _) (by omega)
  obtain ⟨_, _, hPc, hlP, hlc, hPl, hcl, _, hne⟩ := QList_adjacent hq
  have hq2 : QList s ((l0 ++ [P]) ++ c :: n :: l2) := by simpa using hq
  obtain ⟨_, _, hcn, _, _, _, _, _, _⟩ := QList_adjacent hq2
  have hcv := hq.2.2.1 c (by simp)
  have hcu : get_unmarked_ref c.2.next = n.1 := by
    rw [get_unmarked_ref, unset_mark_validRef hcv.2.1, hcn]
  exact parse_delete_of_body (delete_body_present hd hw hlP hlc (hq.2.2.1 P (by simp)).2.2 hPc
    hPl hcv.2.2 hcn hcu hcl rfl hne)

/-- C15: on a well-formed quiescent set in which `P`, `c`, `n` are three consecutive nodes,
`parse_delete` with the key of `c` returns 1; afterwards the successor slot of `P` is exactly
the address of `n` (unmarked), the successor slot of `c` is marked and strips to the address of
`n`, no other node has changed, and `c` is no longer reachable from `set->head`. -/
theorem two_phase_delete (s : State) (hd : Cell) (mid : List Cell) (tl : Cell)
    (l0 l2 : List Cell) (P c n : Cell) (fuel : Nat) (hwf : WFQ s hd mid tl)
    (hpos : hd :: mid ++ [tl] = l0 ++ P :: c :: n :: l2) (hfuel : mid.length + 2 ≤ fuel) :
    ∃ t, parse_delete fuel s c.2.val = some (1, t) ∧
      t.mem P.1 = some ⟨P.2.val, n.1, P.2.lock⟩ ∧ is_marked_ref n.1 = 0 ∧
      (∃ cn, t.mem c.1 = some cn ∧ cn.val = c.2.val ∧ cn.lock = c.2.lock ∧
        is_marked_ref cn.next ≠ 0 ∧ get_unmarked_ref cn.next = n.1) ∧
      (∀ p, p ≠ P.1 → p ≠ c.1 → t.mem p = s.mem p) ∧ t.head = s.head ∧
      (∃ hd1 mid1, WFQ t hd1 mid1 tl ∧ ∀ x ∈ hd1 :: mid1 ++ [tl], x.1 ≠ c.1) := by
  have hq := WFQ_iff_QList.mp hwf
  have hq' : QList s (l0 ++ P :: c :: n :: l2) := hpos ▸ hq
  have hlen : (hd :: mid ++ [tl]).length = (l0 ++ P :: c :: n :: l2).length := by rw [hpos]
  have hdel := delete_at (f := fuel) hq' (by simp at hlen ⊢; omega)
  obtain ⟨_, _, _, hlP, hlc, hPl, hcl, _, hne⟩ := QList_adjacent hq'
  obtain ⟨m1, m2, m3, m4⟩ := delete_post_mem (s := s) (P := P) (c := c) (q := n.1) hne
  have hnv := (hq'.2.2.1 n (by simp)).1
  have hpost := delete_QList hq'
  have e' : hd :: mid ++ [tl] = l0 ++ P :: ([c] ++ n :: l2) := by simpa using hpos
  obtain ⟨hd1, mid1, A, B, e1, _, _, _, _⟩ :=
    retriple e' (P.1, ⟨P.2.val, n.1, false⟩) [] rfl rfl
  have hseg := hq'.1
  have hinc' := increasing_append.mp hq'.2.1
  have hincP := increasing_cons.mp hinc'.2.1
  have hincc := increasing_cons.mp hincP.2
  refine ⟨_, hdel, by rw [m1, hPl], is_marked_ref_validRef hnv,
    ⟨_, m2, rfl, hcl.symm, ?_, ?_⟩, m3, m4, hd1, mid1, ?_, ?_⟩
  · show is_marked_ref (get_marked_ref n.1) ≠ 0
    rw [get_marked_ref, set_mark_validRef hnv, is_marked_ref_succ_validRef hnv]
    decide
  · show get_unmarked_ref (get_marked_ref n.1) = n.1
    rw [get_marked_ref, set_mark_validRef hnv, get_unmarked_ref, unset_mark_succ_validRef hnv]
  · apply WFQ_iff_QList.mpr
    rw [← e1]
    simpa using hpost
  · intro x hx
    rw [← e1] at hx
    have hx' : x ∈ l0 ∨ x = (P.1, ⟨P.2.val, n.1, false⟩) ∨ x ∈ n :: l2 := by
      simpa using hx
    rcases hx' with h | h | h
    · exact addr_ne_of_val_ne hseg (by simp [h]) (by simp)
        (ne_of_lt (hinc'.2.2 x h c (by simp)))
    · rw [h]
      exact fun e => hne e.symm
    · refine addr_ne_of_val_ne hseg ?_ (by simp) (ne_of_gt (hincc.1 x h))
      have : x = n ∨ x ∈ l2 := by simpa using h
      rcases this with rfl | h2 <;> simp [*]

theorem twoSet_WFQ : WFQ twoSet twoHd [twoFive, twoNine] emptyTl := by
  refine ⟨⟨by decide, rfl, by decide,
    by simp [increasing, twoHd, twoFive, twoNine, emptyTl, VAL_MAX]⟩, by decide, ?_⟩
  intro p n h
  simp only [twoSet] at h
  split_ifs at h <;> cases h <;> rfl

theorem two_phase_delete_witness :
    WFQ twoSet twoHd [twoFive, twoNine] emptyTl ∧
      twoHd :: [twoFive, twoNine] ++ [emptyTl] = [] ++ twoHd :: twoFive :: twoNine :: [emptyTl] ∧
      ∃ t, parse_delete 4 twoSet twoFive.2.val = some (1, t) ∧
        t.mem twoHd.1 = some ⟨twoHd.2.val, twoNine.1, twoHd.2.lock⟩ ∧
        is_marked_ref twoNine.1 = 0 ∧
        (∃ cn, t.mem twoFive.1 = some cn ∧ cn.val = twoFive.2.val ∧ cn.lock = twoFive.2.lock ∧
          is_marked_ref cn.next ≠ 0 ∧ get_unmarked_ref cn.next = twoNine.1) ∧
        (∀ p, p ≠ twoHd.1 → p ≠ twoFive.1 → t.mem p = twoSet.mem p) ∧ t.head = twoSet.head ∧
        (∃ hd1 mid1, WFQ t hd1 mid1 emptyTl ∧ ∀ x ∈ hd1 :: mid1 ++ [emptyTl], x.1 ≠ twoFive.1) :=
  ⟨twoSet_WFQ, rfl,
    two_phase_delete twoSet twoHd [twoFive, twoNine] emptyTl [] [emptyTl] twoHd twoFive twoNine 4
      twoSet_WFQ rfl (by decide)⟩

/-! ## Validated lock acquisition -/

theorem val_check_locked {s : State} {p v : Int} {nd : node_l} (hl : load s p = some nd) :
    val_check (store s p ⟨nd.val, nd.next, true⟩) p v = val_check s p v := by
  have hp := (load_eq_some hl).1
  unfold val_check
  rw [load_store_same hp, hl]
  by_cases hm : is_marked_ref nd.next ≠ 0
  · simp [hm]
  · simp only [hm, if_false]
    by_cases he : nd.next = p
    · rw [he, load_store_same hp, hl]
    · rw [load_store_ne he]

theorem lock_ref_spec {s : State} {p q : Int} {nd : node_l} (hl : load s p = some nd)
    (hk : nd.lock = false) :
    lock_ref s p q =
      if is_marked_ref nd.next = 0 ∧ nd.next = q then
        some (1, store s p ⟨nd.val, nd.next, true⟩)
      else some (0, s) := by
  by_cases h : is_marked_ref nd.next = 0 ∧ nd.next = q
  · rw [if_pos h]
    exact lock_ref_ok hl h.1 h.2 hk
  · rw [if_neg h]
    have h' : is_marked_ref nd.next ≠ 0 ∨ nd.next ≠ q := by
      by_cases hm : is_marked_ref nd.next = 0
      · exact Or.inr (fun e => h ⟨hm, e⟩)
      · exact Or.inl hm
    simp [lock_ref, hl, h']

theorem lock_val_spec {s : State} {p v : Int} {nd : node_l} {b : Bool}
    (hl : load s p = some nd) (hk : nd.lock = false) (hc : val_check s p v = some b) :
    lock_val s p v =
      if b = false then some (1, store s p ⟨nd.val, nd.next, true⟩) else some (0, s) := by
  have hc1 := val_check_locked (v := v) hl
  rw [hc] at hc1
  cases b with
  | true => simp [lock_val, hc]
  | false => simp [lock_val, hc, LOCK, hl, hk, hc1]

/-- C16, as the code behaves: in a state in which `node` is allocated and its lock is free,
`lock_ref(node, next)` returns 1 if and only if `node->next` is unmarked and equals `next`; if
moreover `node->next` is marked or points to an allocated node, `lock_val(node, val)` returns 1
if and only if `node->next` is unmarked and `node->next->val == val`. In both functions, when
the result is 1 the only change to the state is that the lock of `node` is held, and otherwise
the result is 0 and the state is exactly as before the call. When `node->next` is unmarked and
is `NULL` or not the address of a node, `lock_val` dereferences it and returns no result. -/
theorem validated_lock_acquisition (s : State) (node next v : Int) (nd : node_l)
    (hl : load s node = some nd) (hk : nd.lock = false) :
    (∃ r s1, lock_ref s node next = some (r, s1) ∧
      (r = 1 ↔ (is_marked_ref nd.next = 0 ∧ nd.next = next)) ∧
      (r = 1 → s1 = store s node ⟨nd.val, nd.next, true⟩) ∧ (r ≠ 1 → r = 0 ∧ s1 = s)) ∧
    ((is_marked_ref nd.next = 0 → ∃ t, load s nd.next = some t) →
      ∃ r s1, lock_val s node v = some (r, s1) ∧
        (r = 1 ↔ (is_marked_ref nd.next = 0 ∧ ∃ t, load s nd.next = some t ∧ t.val = v)) ∧
        (r = 1 → s1 = store s node ⟨nd.val, nd.next, true⟩) ∧ (r ≠ 1 → r = 0 ∧ s1 = s)) ∧
    (is_marked_ref nd.next = 0 → load s nd.next = none → lock_val s node v = none) := by
  refine ⟨?_, ?_, ?_⟩
  · have h := lock_ref_spec (q := next) hl hk
    by_cases hc : is_marked_ref nd.next = 0 ∧ nd.next = next
    · rw [if_pos hc] at h
      exact ⟨1, _, h, ⟨fun _ => hc, fun _ => rfl⟩, fun _ => rfl, fun e => absurd rfl e⟩
    · rw [if_neg hc] at h
      exact ⟨0, s, h, ⟨fun e => absurd e (by decide), fun e => absurd e hc⟩,
        fun e => absurd e (by decide), fun _ => ⟨rfl, rfl⟩⟩
  · intro hn
    by_cases hm : is_marked_ref nd.next = 0
    · obtain ⟨t, ht⟩ := hn hm
      have hc : val_check s node v = some (decide (t.val ≠ v)) := by
        simp [val_check, hl, hm, ht]
      have h := lock_val_spec hl hk hc
      by_cases hv : t.val = v
      · have hb : decide (t.val ≠ v) = false := by simp [hv]
        rw [hb] at h
        simp only [if_true] at h
        exact ⟨1, _, h, ⟨fun _ => ⟨hm, t, ht, hv⟩, fun _ => rfl⟩, fun _ => rfl,
          fun e => absurd rfl e⟩
      · have hb : decide (t.val ≠ v) = true := by simp [hv]
        rw [hb] at h
        simp only [Bool.true_eq_false, if_false] at h
        refine ⟨0, s, h, ?_, fun e => absurd e (by decide), fun _ => ⟨rfl, rfl⟩⟩
        constructor
        · intro e
          exact absurd e (by decide)
        · rintro ⟨_, t', ht', hv'⟩
          rw [ht] at ht'
          cases ht'
          exact absurd hv' hv
    · have hc : val_check s node v = some true := by
        simp [val_check, hl, hm]
      have h := lock_val_spec hl hk hc
      simp only [Bool.true_eq_false, if_false] at h
      exact ⟨0, s, h, ⟨fun e => absurd e (by decide), fun e => absurd e.1 hm⟩,
        fun e => absurd e (by decide), fun _ => ⟨rfl, rfl⟩⟩
  · intro hm hnone
    have hc : val_check s node v = none := by
      simp [val_check, hl, hm, hnone]
    simp [lock_val, hc]

theorem validated_lock_acquisition_witness :
    load emptySet 16 = some emptyHd.2 ∧ emptyHd.2.lock = false ∧
      ((∃ r s1, lock_ref emptySet 16 32 = some (r, s1) ∧
        (r = 1 ↔ (is_marked_ref emptyHd.2.next = 0 ∧ emptyHd.2.next = 32)) ∧
        (r = 1 → s1 = store emptySet 16 ⟨emptyHd.2.val, emptyHd.2.next, true⟩) ∧
        (r ≠ 1 → r = 0 ∧ s1 = emptySet)) ∧
      ((is_marked_ref emptyHd.2.next = 0 → ∃ t, load emptySet emptyHd.2.next = some t) →
        ∃ r s1, lock_val emptySet 16 VAL_MAX = some (r, s1) ∧
          (r = 1 ↔ (is_marked_ref emptyHd.2.next = 0 ∧
            ∃ t, load emptySet emptyHd.2.next = some t ∧ t.val = VAL_MAX)) ∧
          (r = 1 → s1 = store emptySet 16 ⟨emptyHd.2.val, emptyHd.2.next, true⟩) ∧
          (r ≠ 1 → r = 0 ∧ s1 = emptySet)) ∧
      (is_marked_ref emptyHd.2.next = 0 → load emptySet emptyHd.2.next = none →
        lock_val emptySet 16 VAL_MAX = none)) :=
  ⟨by decide, by decide,
    validated_lock_acquisition emptySet 16 32 VAL_MAX emptyHd.2 (by decide) (by decide)⟩

/-- C16 fails as stated: in the empty set the lock of the tail sentinel is free and its
successor slot is `NULL`, unmarked; `lock_val` on the tail sentinel dereferences `NULL` and
returns neither 0 nor 1, whatever the value asked for, while `lock_ref(tail, NULL)` returns 1. -/
theorem lock_val_null_counterexample :
    load emptySet 32 = some emptyTl.2 ∧ emptyTl.2.lock = false ∧ emptyTl.2.next = 0 ∧
      is_marked_ref emptyTl.2.next = 0 ∧
      (lock_val emptySet 32 5).isNone = true ∧ (lock_val emptySet 32 VAL_MAX).isNone = true ∧
      (lock_ref emptySet 32 0).map Prod.fst = some 1 := by
  decide

/-! ## Termination on a quiescent set -/

/-- C17: on a well-formed quiescent set, for every key not above the tail sentinel's key (the
maximum key, boundary keys included), the three operations return. The walk of `parse_find`
stops on a node of the chain, the walk of `parse_insert` and `parse_delete` stops on adjacent
nodes of the chain, so no `NULL` successor is followed; the validations `lock_ref` and
`lock_val` reached from that pair return 1 at the first attempt, and the body of either
`while (1)` loop ends in a `return` the first time it runs. -/
theorem operations_terminate (s : State) (hd : Cell) (mid : List Cell) (tl : Cell)
    (a k : Int) (fuel : Nat) (hwf : WFQ s hd mid tl) (hk : k ≤ tl.2.val) (ha : Fresh s a)
    (hfuel : mid.length + 2 ≤ fuel) :
    (∃ c ∈ hd :: mid ++ [tl], find_walk fuel s s.head k = some c.1 ∧
      ∃ r, parse_find fuel s k = some (r, s)) ∧
    (∃ P ∈ hd :: mid ++ [tl], ∃ c ∈ mid ++ [tl],
      walk fuel s s.head (get_unmarked_ref hd.2.next) k = some (P.1, c.1) ∧
      (c.2.val ≠ k → ∃ s1, lock_ref s P.1 c.1 = some (1, s1)) ∧
      (c.2.val = k → ∃ s1 s2, lock_val s P.1 k = some (1, s1) ∧
        lock_ref s1 c.1 (get_unmarked_ref c.2.next) = some (1, s2))) ∧
    (∃ r t, insert_body fuel s a k = some (Iter.ret r t) ∧
      parse_insert fuel s a k = some (r, t)) ∧
    (∃ r t, delete_body fuel s k = some (Iter.ret r t) ∧
      parse_delete fuel s k = some (r, t)) := by
  obtain ⟨n, rfl⟩ : ∃ n, fuel = n + 1 := ⟨fuel - 1, by omega⟩
  have hq := WFQ_iff_QList.mp hwf
  have hhd := seg_load hq.1 (c := hd) (by simp)
  rw [← hq.1.1] at hhd
  obtain ⟨l0, P, c, l2, e, _, hc, hw, hcm, _⟩ := anchor (k := k) (f := n + 1) hq
    ⟨tl, by simp, by omega⟩ (by simp; omega)
  have hq' : QList s (l0 ++ P :: c :: l2) := e ▸ hq
  obtain ⟨_, _, hPc, hlP, hlc, hPl, hcl, _, hne⟩ := QList_adjacent hq'
  have hPm := (hq'.2.2.1 P (by simp)).2.2
  have hcv := hq'.2.2.1 c (by simp)
  have hcu : get_unmarked_ref c.2.next = c.2.next := by
    rw [get_unmarked_ref, unset_mark_validRef hcv.2.1]
  have hPmem : P ∈ hd :: mid ++ [tl] := by
    have e' : hd :: mid ++ [tl] = l0 ++ P :: c :: l2 := by simpa using e
    rw [e']
    simp
  have haP : a ≠ P.1 := by
    intro h
    have := ha.2.2
    rw [h, (load_eq_some hlP).2] at this
    cases this
  refine ⟨?_, ⟨P, hPmem, c, hcm, hw, ?_, ?_⟩, ?_, ?_⟩
  · obtain ⟨l1, x, l3, e1, h1, h2⟩ :=
      split_first (fun y : Cell => y.2.val < k) (hd :: mid ++ [tl]) ⟨tl, by simp, by omega⟩
    have hseg := hq.1
    have hlen : (hd :: mid ++ [tl]).length = (l1 ++ x :: l3).length := by rw [e1]
    rw [e1] at hseg
    have hfw := find_walk_spec (k := k) (f := n + 1) l1 x l3 hseg h1 h2
      (by simp at hlen ⊢; omega)
    obtain ⟨r, hr, _⟩ := parse_find_chain (k := k) (f := n + 1) hq.1 hq.2.1
      ⟨tl, by simp, by omega⟩ (by simp; omega)
    exact ⟨x, by rw [e1]; simp, hfw, r, hr⟩
  · intro _
    exact ⟨_, lock_ref_ok hlP hPm hPc hPl⟩
  · intro hck
    have hPc' : P.2.next ≠ P.1 := by rw [hPc]; exact hne
    have hc' : load s P.2.next = some c.2 := by rw [hPc]; exact hlc
    have hc1 : load (store s P.1 ⟨P.2.val, P.2.next, true⟩) c.1 = some c.2 := by
      rw [load_store_ne hne]; exact hlc
    exact ⟨_, _, lock_val_ok hlP hPm hc' hPc' hck hPl, lock_ref_ok hc1 hcv.2.2 hcu.symm hcl⟩
  · by_cases hck : c.2.val = k
    · have hb := insert_body_present (a := a) hhd hw hlc hck
      exact ⟨0, s, hb, parse_insert_of_body hb⟩
    · have hb := insert_body_absent (a := a) hhd hw hlP hlc hPm hPc hPl hck haP
      exact ⟨1, _, hb, parse_insert_of_body hb⟩
  · by_cases hck : c.2.val = k
    · have hb := delete_body_present hhd hw hlP hlc hPm hPc hPl hcv.2.2 rfl hcu hcl hck hne
      exact ⟨1, _, hb, parse_delete_of_body hb⟩
    · have hb := delete_body_absent hhd hw hlc hck
      exact ⟨0, s, hb, parse_delete_of_body hb⟩

theorem operations_terminate_witness :
    WFQ emptySet emptyHd [] emptyTl ∧ VAL_MAX ≤ emptyTl.2.val ∧ Fresh emptySet 48 ∧
      ((∃ c ∈ emptyHd :: [] ++ [emptyTl], find_walk 2 emptySet emptySet.head VAL_MAX = some c.1 ∧
        ∃ r, parse_find 2 emptySet VAL_MAX = some (r, emptySet)) ∧
      (∃ P ∈ emptyHd :: [] ++ [emptyTl], ∃ c ∈ [] ++ [emptyTl],
        walk 2 emptySet emptySet.head (get_unmarked_ref emptyHd.2.next) VAL_MAX
          = some (P.1, c.1) ∧
        (c.2.val ≠ VAL_MAX → ∃ s1, lock_ref emptySet P.1 c.1 = some (1, s1)) ∧
        (c.2.val = VAL_MAX → ∃ s1 s2, lock_val emptySet P.1 VAL_MAX = some (1, s1) ∧
          lock_ref s1 c.1 (get_unmarked_ref c.2.next) = some (1, s2))) ∧
      (∃ r t, insert_body 2 emptySet 48 VAL_MAX = some (Iter.ret r t) ∧
        parse_insert 2 emptySet 48 VAL_MAX = some (r, t)) ∧
      (∃ r t, delete_body 2 emptySet VAL_MAX = some (Iter.ret r t) ∧
        parse_delete 2 emptySet VAL_MAX = some (r, t))) :=
  ⟨emptySet_WFQ, by decide, emptySet_fresh,
    operations_terminate emptySet emptyHd [] emptyTl 48 VAL_MAX 2 emptySet_WFQ (by decide)
      emptySet_fresh (by decide)⟩

/-! ## A logically deleted key -/

/-- C12 at a state between the logical-delete write and the physical unlink of
`parse_delete(set, 7)`: the chain is strictly increasing between the sentinels, the node of key
7 is still linked and carries a marked successor slot. There `parse_insert(set, 7)` returns 0
(already present) although `parse_find(set, 7)` returns 0 (absent). -/
theorem insert_reports_deleted_key :
    SortedChain midDeleteState midDeleteHd midDeleteMid markedTl ∧
      midDeleteHd.2.val < 7 ∧ 7 < markedTl.2.val ∧
      (parse_insert 4 midDeleteState 80 7).map Prod.fst = some 0 ∧
      (parse_find 4 midDeleteState 7).map Prod.fst = some 0 ∧
      (parse_find 4 midDeleteState 7).map Prod.fst ≠ some 1 := by
  refine ⟨⟨by decide, rfl, by decide, ?_⟩, by decide, by decide, by decide, by decide,
    by decide⟩
  simp [increasing, midDeleteHd, midDeleteMid, markedTl]

/-! ## The harness's random keys -/

/-- The value the claim computes lies in `[1; r]` for a range `r` in `[1; m]` and a generator
output `x` in `[0; m]`. -/
theorem exact_value_bounds {m r x : Int} (hr1 : 1 ≤ r) (hr2 : r ≤ m) (hx1 : 0 ≤ x)
    (hx2 : x ≤ m) : 1 ≤ exact_value m r x ∧ exact_value m r x ≤ r := by
  have hq0 : 0 ≤ r * x / (m + 1) := Int.ediv_nonneg (mul_nonneg (by omega) hx1) (by omega)
  have hq1 : r * x / (m + 1) < r := by
    apply Int.ediv_lt_of_lt_mul (by omega)
    have h1 : r * x ≤ r * m := mul_le_mul_of_nonneg_left hx2 (by omega)
    have h2 : r * (m + 1) = r * m + r := by ring
    omega
  unfold exact_value
  exact ⟨by omega, by omega⟩

/-- At the generator output `2 ^ 30` and the range 2 the value the claim computes is 2, the
value the code returns; at the output 1996451821 and the range 699619869 the double product
rounds up and the code returns one more than the exact quotient gives. -/
theorem exact_value_at_inputs :
    exact_value RAND_MAX 2 1073741824 = 2 ∧
      rand_range RAND_MAX [1996451821] 699619869 = some 650415832 ∧
      exact_value RAND_MAX 699619869 1996451821 = 650415831 := by
  decide

/-- C19 at the generator output `2 ^ 30` with `RAND_MAX = 2 ^ 31 - 1`: `rand_range(2)` and
`rand_range_re(seed, 2)` return 2, which is not below the range. The documented interval is
`[1; range)`; the code returns values in `[1; range]`. -/
theorem rand_range_reaches_range :
    0 ≤ (1073741824 : Int) ∧ 1073741824 ≤ RAND_MAX ∧ 1 ≤ (2 : Int) ∧ 2 ≤ RAND_MAX ∧
      rand_range RAND_MAX [1073741824] 2 = some 2 ∧
      rand_range_re RAND_MAX [1073741824] 2 = some 2 ∧
      rand_range RAND_MAX [0] 1 = some 1 := by
  decide

/-! ## Calls with a sentinel's key -/

/-- Removal of the tail sentinel `tl`, the node before it being `P`: `parse_delete` with the
tail's key returns 1 and leaves the successor slot of `P` at `NULL`. -/
theorem delete_tail {s : State} {l0 : List Cell} {P tl : Cell} {f : Nat}
    (hq : QList s (l0 ++ P :: tl :: [])) (htl : tl.2.next = 0)
    (hf : (l0 ++ [P]).length + 1 ≤ f) :
    parse_delete f s tl.2.val = some (1, delete_post s P tl 0) := by
  obtain ⟨m, rfl⟩ : ∃ m, f = m + 1 := ⟨f - 1, by omega⟩
  have hinc' := increasing_append.mp hq.2.1
  have hlt : ∀ x ∈ (l0 ++ [P]).tail, x.2.val < tl.2.val := by
    intro x hx
    have hx' : x ∈ l0 ++ [P] := List.mem_of_mem_tail hx
    rcases List.mem_append.mp hx' with h | h
    · exact hinc'.2.2 x h tl (by simp)
    · simp only [List.mem_singleton] at h
      rw [h]
      exact (increasing_cons.mp hinc'.2.1).1 tl (by simp)
  obtain ⟨d, hd, hw⟩ := walk_at (k := tl.2.val) (f := m + 1) hq hlt (lt_irrefl _) (by omega)
  obtain ⟨_, _, hPc, hlP, hlc, hPl, hcl, _, hne⟩ := QList_adjacent hq
  have hcv := hq.2.2.1 tl (by simp)
  have hcu : get_unmarked_ref tl.2.next = 0 := by
    rw [htl]
    decide
  exact parse_delete_of_body (delete_body_present hd hw hlP hlc (hq.2.2.1 P (by simp)).2.2 hPc
    hPl hcv.2.2 htl hcu hcl rfl hne)

/-- C5, as the code behaves, on every well-formed quiescent set. `parse_insert` with the tail
sentinel's key and `parse_delete` with the head sentinel's key return 0 and leave the state as
it was, so both sentinels stay in place and the chain stays strictly increasing.
`parse_delete` with the tail sentinel's key returns 1 and unlinks the tail sentinel: the
successor slot of its predecessor `P` becomes `NULL`, the tail's slot becomes marked, nothing
else changes, and the tail is no longer reachable from `set->head`. `parse_insert` with the
head sentinel's key and a fresh node returns 1 and links a second node carrying the head
sentinel's key right after the head: the head is still `set->head` and the tail is still the
last node, but the chain from `set->head` is no longer strictly increasing. -/
theorem boundary_calls (s : State) (hd : Cell) (mid : List Cell) (tl : Cell)
    (a : Int) (fuel : Nat) (hwf : WFQ s hd mid tl) (hfuel : mid.length + 2 ≤ fuel) :
    parse_insert fuel s a tl.2.val = some (0, s) ∧
      parse_delete fuel s hd.2.val = some (0, s) ∧ WFQ s hd mid tl ∧
      (∃ t l0 P, hd :: mid = l0 ++ [P] ∧ parse_delete fuel s tl.2.val = some (1, t) ∧
        t.mem P.1 = some ⟨P.2.val, 0, false⟩ ∧
        t.mem tl.1 = some ⟨tl.2.val, get_marked_ref 0, false⟩ ∧
        is_marked_ref (get_marked_ref 0) ≠ 0 ∧
        (∀ p, p ≠ P.1 → p ≠ tl.1 → t.mem p = s.mem p) ∧ t.head = s.head ∧
        (∀ cells, seg t t.head cells 0 → ∀ x ∈ cells, x.1 ≠ tl.1)) ∧
      (Fresh s a → ∃ t c l2, mid ++ [tl] = c :: l2 ∧
        parse_insert fuel s a hd.2.val = some (1, t) ∧
        seg t t.head
          ((hd.1, ⟨hd.2.val, a, false⟩) :: (a, ⟨hd.2.val, c.1, false⟩) :: (mid ++ [tl])) 0 ∧
        t.head = s.head ∧ (∀ p, p ≠ hd.1 → p ≠ a → t.mem p = s.mem p) ∧
        (∀ cells, seg t t.head cells 0 → ¬ increasing cells)) := by
  have hq := WFQ_iff_QList.mp hwf
  have hinc := hwf.1.2.2.2
  have hlt := (increasing_cons.mp hinc).1
  refine ⟨insert_WFQ_present hwf ⟨tl, by simp, rfl⟩ hfuel, ?_, hwf, ?_, ?_⟩
  · refine delete_WFQ_absent hwf (le_of_lt (hlt tl (by simp))) ?_ hfuel
    intro c hc
    exact ne_of_gt (hlt c hc)
  · obtain ⟨l0, P, e⟩ : ∃ l0 P, hd :: mid = l0 ++ [P] := by
      rcases List.eq_nil_or_concat (hd :: mid) with h | ⟨l0, P, h⟩
      · cases h
      · exact ⟨l0, P, by simpa using h⟩
    have ecells : hd :: mid ++ [tl] = l0 ++ P :: tl :: [] := by
      have : hd :: mid ++ [tl] = (hd :: mid) ++ [tl] := rfl
      rw [this, e]
      simp
    have hq' : QList s (l0 ++ P :: tl :: []) := ecells ▸ hq
    have hlen : (hd :: mid).length = (l0 ++ [P]).length := by rw [e]
    have hdel := delete_tail (f := fuel) hq' hwf.1.2.1 (by simp at hlen ⊢; omega)
    obtain ⟨hs0, _, _, hlP, _, _, _, _, hne⟩ := QList_adjacent hq'
    obtain ⟨m1, m2, m3, m4⟩ := delete_post_mem (s := s) (P := P) (c := tl) (q := 0) hne
    have hseg := hq'.1
    have hinc' := increasing_append.mp hq'.2.1
    have hl0 : ∀ x ∈ l0, x.1 ≠ P.1 ∧ x.1 ≠ tl.1 := by
      intro x hx
      exact ⟨addr_ne_of_val_ne hseg (by simp [hx]) (by simp)
          (ne_of_lt (hinc'.2.2 x hx P (by simp))),
        addr_ne_of_val_ne hseg (by simp [hx]) (by simp)
          (ne_of_lt (hinc'.2.2 x hx tl (by simp)))⟩
    have hchain : seg (delete_post s P tl 0) (delete_post s P tl 0).head
        (l0 ++ [(P.1, ⟨P.2.val, 0, false⟩)]) 0 := by
      rw [m4]
      refine seg_append.mpr ⟨P.1, seg_frame (fun x hx => m3 _ (hl0 x hx).1 (hl0 x hx).2) hs0,
        rfl, (load_eq_some hlP).1, m1, ?_⟩
      show get_unmarked_ref 0 = 0
      decide
    refine ⟨_, l0, P, e, hdel, m1, m2, by decide, m3, m4, ?_⟩
    intro cells hcells x hx
    rw [seg_unique hcells hchain] at hx
    rcases List.mem_append.mp hx with h | h
    · exact (hl0 x h).2
    · simp only [List.mem_singleton] at h
      rw [h]
      exact fun e2 => hne e2.symm
  · intro ha
    obtain ⟨n, rfl⟩ : ∃ n, fuel = n + 1 := ⟨fuel - 1, by omega⟩
    obtain ⟨c, l2, e⟩ : ∃ c l2, mid ++ [tl] = c :: l2 := by
      cases mid with
      | nil => exact ⟨tl, [], rfl⟩
      | cons y ys => exact ⟨y, ys ++ [tl], rfl⟩
    have ecells : hd :: mid ++ [tl] = [] ++ hd :: c :: l2 := by
      have : hd :: mid ++ [tl] = hd :: (mid ++ [tl]) := rfl
      rw [this, e]
      rfl
    have hq' : QList s ([] ++ hd :: c :: l2) := ecells ▸ hq
    obtain ⟨_, hs1, hPc, hlP, hlc, hPl, _, hlt', hne⟩ := QList_adjacent hq'
    obtain ⟨d, hd0, hw⟩ := walk_at (k := hd.2.val) (f := n + 1) hq' (by simp)
      (by omega) (by simp)
    have haP : a ≠ hd.1 := by
      intro h
      have := ha.2.2
      rw [h, (load_eq_some hlP).2] at this
      cases this
    have hbody := insert_body_absent (a := a) hd0 hw hlP hlc (hq'.2.2.1 hd (by simp)).2.2 hPc
      hPl (ne_of_gt hlt') haP
    obtain ⟨m1, m2, m3, m4⟩ :=
      insert_post_mem (s := s) (P := hd) (a := a) (k := hd.2.val) (c := c.1) haP
    have hseg := hq'.1
    have hincP := increasing_cons.mp (increasing_append.mp hq'.2.1).2.1
    have hfr : ∀ x ∈ c :: l2, (insert_post s hd a hd.2.val c.1).mem x.1 = s.mem x.1 := by
      intro x hx
      have hx' : x ∈ [] ++ hd :: c :: l2 := by simp [hx]
      refine m3 _ ?_ ?_
      · exact addr_ne_of_val_ne hseg hx' (by simp) (ne_of_gt (hincP.1 x hx))
      · intro h
        have := ha.2.2
        rw [← h, (seg_mem hseg x hx').2] at this
        cases this
    have hchain : seg (insert_post s hd a hd.2.val c.1) (insert_post s hd a hd.2.val c.1).head
        ((hd.1, ⟨hd.2.val, a, false⟩) :: (a, ⟨hd.2.val, c.1, false⟩) :: (mid ++ [tl])) 0 := by
      rw [m4, e]
      refine ⟨hq.1.1, hq.1.2.1, by rw [hq.1.1]; exact m1, ?_⟩
      show seg _ (get_unmarked_ref a) _ 0
      rw [get_unmarked_ref, unset_mark_validRef ha.1]
      refine ⟨rfl, ha.2.1, m2, ?_⟩
      show seg _ (get_unmarked_ref c.1) _ 0
      rw [get_unmarked_ref, unset_mark_validRef (hq'.2.2.1 c (by simp)).1]
      exact seg_frame hfr hs1
    refine ⟨_, c, l2, e, parse_insert_of_body hbody, hchain, m4, m3, ?_⟩
    intro cells hcells hincr
    rw [seg_unique hcells hchain] at hincr
    have := (increasing_cons.mp hincr).1 (a, ⟨hd.2.val, c.1, false⟩) (by simp)
    exact lt_irrefl _ this

theorem boundary_calls_witness :
    WFQ fiveSet fiveHd fiveMid emptyTl ∧
      (parse_insert 3 fiveSet 64 emptyTl.2.val = some (0, fiveSet) ∧
        parse_delete 3 fiveSet fiveHd.2.val = some (0, fiveSet) ∧
        WFQ fiveSet fiveHd fiveMid emptyTl ∧
        (∃ t l0 P, fiveHd :: fiveMid = l0 ++ [P] ∧
          parse_delete 3 fiveSet emptyTl.2.val = some (1, t) ∧
          t.mem P.1 = some ⟨P.2.val, 0, false⟩ ∧
          t.mem emptyTl.1 = some ⟨emptyTl.2.val, get_marked_ref 0, false⟩ ∧
          is_marked_ref (get_marked_ref 0) ≠ 0 ∧
          (∀ p, p ≠ P.1 → p ≠ emptyTl.1 → t.mem p = fiveSet.mem p) ∧ t.head = fiveSet.head ∧
          (∀ cells, seg t t.head cells 0 → ∀ x ∈ cells, x.1 ≠ emptyTl.1)) ∧
        (Fresh fiveSet 64 → ∃ t c l2, fiveMid ++ [emptyTl] = c :: l2 ∧
          parse_insert 3 fiveSet 64 fiveHd.2.val = some (1, t) ∧
          seg t t.head
            ((fiveHd.1, ⟨fiveHd.2.val, 64, false⟩) :: (64, ⟨fiveHd.2.val, c.1, false⟩) ::
              (fiveMid ++ [emptyTl])) 0 ∧
          t.head = fiveSet.head ∧ (∀ p, p ≠ fiveHd.1 → p ≠ 64 → t.mem p = fiveSet.mem p) ∧
          (∀ cells, seg t t.head cells 0 → ¬ increasing cells))) :=
  ⟨fiveSet_WFQ, boundary_calls fiveSet fiveHd fiveMid emptyTl 64 3 fiveSet_WFQ (by decide)⟩

end LazyList
